import Mathlib

/-!
Verification of `tools/toolbox/documentation.py` (helipad repository).

The file shallow-embeds the documentation helper: the pure text
transformation of `_prepare_doxygen_config` (Python `str.replace` and the
`re.sub` of the single pattern `^OUTPUT_DIRECTORY\s*=.*$` with
`re.MULTILINE`), a small filesystem model for the reads/writes it performs,
and an event-trace model of the two entry points plus `main`.

Strings are modelled as `List Char`.  Python `\s` (for `str` patterns) is
the character set `pyWhitespace` below; note that it matches `'\n'`, which
is what lets the "single-line" pattern span two lines.  The `re.sub`
replacement string is inserted literally; this matches CPython whenever the
inserted path contains no backslash (CPython would otherwise process
template escapes), and theorems that depend on the replacement carry that
hypothesis on the root path.
-/

abbrev Str := List Char

def str (s : String) : Str := s.data

/-- `PreOf p l` : `p` is a prefix of `l`. -/
def PreOf (p l : Str) : Prop := ∃ t, p ++ t = l

/-- `InfOf p l` : `p` occurs as a contiguous substring of `l`. -/
def InfOf (p l : Str) : Prop := ∃ a b, a ++ p ++ b = l

/-- Boolean prefix test. -/
def preB : Str → Str → Bool
  | [], _ => true
  | _ :: _, [] => false
  | a :: ps, b :: ls => if a = b then preB ps ls else false

/-- Index of the leftmost occurrence of `pat` (CPython `str.find`). -/
def findOcc (pat : Str) : Str → Option Nat
  | [] => if preB pat [] then some 0 else none
  | c :: rest => if preB pat (c :: rest) then some 0 else (findOcc pat rest).map (· + 1)

/-- Fuelled worker for `pyReplace`; fuel `≥ s.length` is always enough for a
nonempty needle since every step consumes at least one character. -/
def pyReplaceF (old val : Str) : Nat → Str → Str
  | 0, s => s
  | fuel + 1, s =>
    match findOcc old s with
    | none => s
    | some i => s.take i ++ val ++ pyReplaceF old val fuel (s.drop (i + old.length))

/-- Python `s.replace(old, val)`: leftmost non-overlapping occurrences are
replaced, and inserted text is never rescanned.  The empty-needle case
follows CPython ("ab".replace("", "X") = "XaXbX"). -/
def pyReplace (s old val : Str) : Str :=
  match old with
  | [] => val ++ s.flatMap (fun c => c :: val)
  | _ :: _ => pyReplaceF old val s.length s

/-- The characters matched by `\s` in a CPython `str` regex. -/
def pyWhitespace : Str :=
  [' ', '\t', '\n', '\x0b', '\x0c', '\r',
   '\u001C', '\u001D', '\u001E', '\u001F', '\u0085', '\u00A0', '\u1680',
   '\u2000', '\u2001', '\u2002', '\u2003', '\u2004', '\u2005', '\u2006',
   '\u2007', '\u2008', '\u2009', '\u200A', '\u2028', '\u2029', '\u202F',
   '\u205F', '\u3000']

def pyIsSpace (c : Char) : Bool := pyWhitespace.contains c

def notNl (c : Char) : Bool := !(c == '\n')

def odLit : Str := str "OUTPUT_DIRECTORY"

/-- Attempt to match `OUTPUT_DIRECTORY\s*=.*$` at a position known to be a
line start (the `^` anchor); returns the length of the (unique, greedy)
match.  `\s*` is maximal; backtracking cannot help because `'='` is not a
whitespace character, and `.*` runs to the next newline where `$` holds. -/
def matchOD (s : Str) : Option Nat :=
  if preB odLit s then
    match (s.drop odLit.length).dropWhile pyIsSpace with
    | '=' :: r2 =>
        some (odLit.length + ((s.drop odLit.length).takeWhile pyIsSpace).length + 1
          + (r2.takeWhile notNl).length)
    | _ => none
  else none

/-- Scan for the leftmost match of the anchored pattern, as `re.sub` does:
a match is attempted at every position, and the `^` anchor restricts hits
to line starts.  Returns the match position and length. -/
def findOD : Str → Bool → Option (Nat × Nat)
  | [], _ => none
  | c :: rest, lineStart =>
    match (if lineStart then matchOD (c :: rest) else none) with
    | some n => some (0, n)
    | none => (findOD rest (c == '\n')).map (fun p => (p.1 + 1, p.2))

/-- Fuelled worker for `reSubOD`; every replacement consumes at least one
character of the input, so fuel `≥ s.length` suffices. -/
def reSubF (repl : Str) : Nat → Str → Bool → Str
  | 0, s, _ => s
  | fuel + 1, s, lineStart =>
    match findOD s lineStart with
    | none => s
    | some (i, n) => s.take i ++ repl ++ reSubF repl fuel (s.drop (i + n)) false

/-- `re.sub(r"^OUTPUT_DIRECTORY\s*=.*$", repl, text, flags=re.MULTILINE)`
with the replacement inserted literally. -/
def reSubOD (repl text : Str) : Str := reSubF repl text.length text true

/-- `reSubF` at its canonical fuel; `reSubOD repl text = reSubW repl text true`. -/
def reSubW (repl s : Str) (lineStart : Bool) : Str := reSubF repl s.length s lineStart

/-- Split on `'\n'` (the list of lines; no line contains `'\n'`). -/
def splitNl : Str → List Str
  | [] => [[]]
  | c :: rest =>
    if c = '\n' then [] :: splitNl rest
    else
      match splitNl rest with
      | [] => [[c]]
      | l :: ls => (c :: l) :: ls

/-- Rejoin lines with `'\n'`; left inverse of `splitNl`. -/
def joinNl : List Str → Str
  | [] => []
  | [l] => l
  | l :: ls => l ++ '\n' :: joinNl ls

/-- A single line matches `^OUTPUT_DIRECTORY\s*=` (equivalently, matches
`^OUTPUT_DIRECTORY\s*=.*$`, since `.*$` always succeeds within a line). -/
def lineMatchesOD (l : Str) : Bool :=
  preB odLit l &&
    match (l.drop odLit.length).dropWhile pyIsSpace with
    | '=' :: _ => true
    | _ => false

/-- A line that is `OUTPUT_DIRECTORY` followed by whitespace only: from such
a line the `\s*` of the pattern can cross the line break. -/
def isODwsOnly (l : Str) : Bool :=
  preB odLit l && ((l.drop odLit.length).dropWhile pyIsSpace).isEmpty

/-! ## The concrete configuration-templating text transformation -/

def replacements (root : Str) : List (Str × Str) :=
  [(str "@CMAKE_SOURCE_DIR@", root),
   (str "@PROJECT_NAME@", str "Helipad"),
   (str "@PROJECT_VERSION@", str "dev"),
   (str "@PROJECT_DESCRIPTION@", str "Helipad SDL3 engine")]

def placeholderTokens : List Str :=
  [str "@CMAKE_SOURCE_DIR@", str "@PROJECT_NAME@",
   str "@PROJECT_VERSION@", str "@PROJECT_DESCRIPTION@"]

/-- The `for placeholder, value in replacements.items(): text = text.replace(...)` loop. -/
def applyReplacements (root text : Str) : Str :=
  (replacements root).foldl (fun t pv => pyReplace t pv.1 pv.2) text

def outputDir (root : Str) : Str := root ++ str "/build/docs/doxygen"

/-- The `re.sub` replacement string `f"OUTPUT_DIRECTORY       = {output_dir.as_posix()}"`. -/
def replLine (root : Str) : Str := str "OUTPUT_DIRECTORY       = " ++ outputDir root

/-- The full text transformation of `_prepare_doxygen_config`. -/
def prepareText (root text : Str) : Str := reSubOD (replLine root) (applyReplacements root text)

def generatedPath (root : Str) : Str := outputDir root ++ str "/Doxyfile.generated"

def doxyfilePath (root : Str) : Str := root ++ str "/Doxyfile"

def mkdocsYml (root : Str) : Str := root ++ str "/mkdocs.yml"

/-! ## Paths: `_repo_root` -/

/-- `Path.parent` of a POSIX path string (drop the last `/`-separated component). -/
def parentDir (p : Str) : Str := ((p.reverse.dropWhile (fun c => !(c == '/'))).drop 1).reverse

/-- `Path(p).resolve()`: an absolute path stays itself; a relative one is
interpreted against the process working directory. -/
def resolvePath (cwd p : Str) : Str := if p.head? = some '/' then p else cwd ++ '/' :: p

/-- `_repo_root() = Path(__file__).resolve().parents[2]` (third ancestor). -/
def repo_root (cwd moduleFile : Str) : Str :=
  parentDir (parentDir (parentDir (resolvePath cwd moduleFile)))

/-! ## Filesystem model -/

structure FS where
  dirs : List Str
  files : List (Str × Str)
deriving DecidableEq

def lookupFile : List (Str × Str) → Str → Option Str
  | [], _ => none
  | pc :: rest, q => if pc.1 = q then some pc.2 else lookupFile rest q

def setFile : List (Str × Str) → Str → Str → List (Str × Str)
  | [], p, t => [(p, t)]
  | qc :: rest, p, t => if qc.1 = p then (p, t) :: rest else qc :: setFile rest p t

def memL : List Str → Str → Bool
  | [], _ => false
  | d :: ds, p => if d = p then true else memL ds p

def FS.isFile (fs : FS) (p : Str) : Bool := (lookupFile fs.files p).isSome

def FS.isDir (fs : FS) (p : Str) : Bool := memL fs.dirs p

/-- `Path.exists()`: true for a file or a directory. -/
def FS.pathExists (fs : FS) (p : Str) : Bool := fs.isFile p || fs.isDir p

/-- One step of `mkdir(exist_ok=True)`: error (`none`) if the path exists as
a file; otherwise create the directory if it is not already there. -/
def mkdirOne (fs : FS) (d : Str) : Option FS :=
  if fs.isFile d then none
  else if memL fs.dirs d then some fs
  else some { fs with dirs := d :: fs.dirs }

/-- `mkdir(parents=True, exist_ok=True)` over the listed ancestors in order;
on failure the directories already created stay created. -/
def mkdirParents (fs : FS) : List Str → FS × Bool
  | [] => (fs, true)
  | d :: ds =>
    match mkdirOne fs d with
    | none => (fs, false)
    | some fs1 => mkdirParents fs1 ds

/-- The directories `output_dir.mkdir(parents=True, exist_ok=True)` ensures. -/
def neededDirs (root : Str) : List Str :=
  [root ++ str "/build", root ++ str "/build/docs", root ++ str "/build/docs/doxygen"]

/-- `Path.write_text`: error if the target exists as a directory, else
create or overwrite the file. -/
def writeText (fs : FS) (p text : Str) : Option FS :=
  if memL fs.dirs p then none else some { fs with files := setFile fs.files p text }

/-! ## Event-trace model of the process-level behaviour -/

inductive Event where
  | mkdirP (path : Str)
  | writeFile (path : Str) (content : Str)
  | runCmd (cmd : List Str) (cwd : Str) (rc : Int)
  | popen (cmd : List Str) (cwd : Str)
  | waitChild
  | terminate
  | waitTimeout (seconds : Nat)
  | kill
deriving DecidableEq

inductive Err where
  | sysExit (msg : Str)
  | exn
deriving DecidableEq

/-- Environment: everything outside the program's control — where the module
file sits, the exit codes the external tools will return, whether Ctrl-C
arrives during `mkdocs serve`, and whether the 5-second graceful wait after
`terminate` completes in time. -/
structure Env where
  moduleFile : Str
  doxygenExit : Int
  buildExit : Int
  interrupted : Bool
  serveGraceful : Bool
deriving DecidableEq

def joinSpace : List Str → Str
  | [] => []
  | [c] => c
  | c :: cs => c ++ ' ' :: joinSpace cs

/-- `_run(command, cwd=...)`: `subprocess.run` synchronously, then
`raise SystemExit(f"command failed: {joined}")` on a non-zero exit code. -/
def runProc (command : List Str) (cwd : Str) (rc : Int) : List Event × Option Err :=
  ([Event.runCmd command cwd rc],
   if rc = 0 then none else some (Err.sysExit (str "command failed: " ++ joinSpace command)))

/-- `_prepare_doxygen_config(root)`: read the template, create the output
directory, transform the text, write the generated file.  Returns the event
trace, the updated filesystem, and a possible failure (`Err.exn` models an
uncaught Python exception; no `SystemExit` arises here). -/
def prepare_doxygen_config (root : Str) (fs : FS) : List Event × FS × Option Err :=
  match lookupFile fs.files (doxyfilePath root) with
  | none => ([], fs, some Err.exn)
  | some text =>
    match mkdirParents fs (neededDirs root) with
    | (fs1, false) => ([], fs1, some Err.exn)
    | (fs1, true) =>
      let content := prepareText root text
      match writeText fs1 (generatedPath root) content with
      | none => ([Event.mkdirP (outputDir root)], fs1, some Err.exn)
      | some fs2 =>
        ([Event.mkdirP (outputDir root), Event.writeFile (generatedPath root) content],
         fs2, none)

/-- `generate_source_docs()`. -/
def generate_source_docs (cwd : Str) (env : Env) (fs : FS) : List Event × FS × Option Err :=
  let root := repo_root cwd env.moduleFile
  if fs.pathExists (doxyfilePath root) then
    match prepare_doxygen_config root fs with
    | (e1, fs1, some e) => (e1, fs1, some e)
    | (e1, fs1, none) =>
      let (e2, r2) := runProc [str "doxygen", generatedPath root] root env.doxygenExit
      (e1 ++ e2, fs1, r2)
  else ([], fs, some (Err.sysExit (str "missing Doxygen config: " ++ doxyfilePath root)))

/-- `generate_user_docs()`: `mkdocs build` through `_run`, then
`mkdocs serve` through `Popen`/`wait` with the Ctrl-C handler
(`terminate`, `wait(timeout=5)`, `kill` only if that wait fails). -/
def generate_user_docs (cwd : Str) (env : Env) (fs : FS) : List Event × FS × Option Err :=
  let root := repo_root cwd env.moduleFile
  if fs.pathExists (mkdocsYml root) then
    let cfg := mkdocsYml root
    let (e1, r1) := runProc [str "mkdocs", str "build", str "--config-file", cfg] root env.buildExit
    match r1 with
    | some e => (e1, fs, some e)
    | none =>
      let serveCmd := [str "mkdocs", str "serve", str "--config-file", cfg]
      let e2 :=
        if env.interrupted then
          [Event.popen serveCmd root, Event.waitChild, Event.terminate, Event.waitTimeout 5]
            ++ (if env.serveGraceful then [] else [Event.kill])
        else [Event.popen serveCmd root, Event.waitChild]
      (e1 ++ e2, fs, none)
  else ([], fs, some (Err.sysExit (str "missing MkDocs config: " ++ mkdocsYml root)))

/-- `main()` (named `mainEntry` here since Lean reserves `main`): source docs, then user docs; a `SystemExit` from the first
step aborts before the second starts. -/
def mainEntry (cwd : Str) (env : Env) (fs : FS) : List Event × FS × Option Err :=
  match generate_source_docs cwd env fs with
  | (e1, fs1, some e) => (e1, fs1, some e)
  | (e1, fs1, none) =>
    match generate_user_docs cwd env fs1 with
    | (e2, fs2, r2) => (e1 ++ e2, fs2, r2)

/-! ## Trace observations used by the claims -/

def isWriteEv : Event → Bool
  | Event.writeFile _ _ => true
  | _ => false

def isDoxygenRun : Event → Bool
  | Event.runCmd (a :: _) _ _ => a == str "doxygen"
  | _ => false

def isBuildRun : Event → Bool
  | Event.runCmd (a :: b :: _) _ _ => a == str "mkdocs" && b == str "build"
  | _ => false

def isServeStart : Event → Bool
  | Event.popen (a :: b :: _) _ => a == str "mkdocs" && b == str "serve"
  | _ => false

def doxygenCmdOf (root : Str) : List Str := [str "doxygen", generatedPath root]

def mkdocsBuildCmd (root : Str) : List Str :=
  [str "mkdocs", str "build", str "--config-file", mkdocsYml root]

def mkdocsServeCmd (root : Str) : List Str :=
  [str "mkdocs", str "serve", str "--config-file", mkdocsYml root]

/-! ## Claims -/

/-- C3: `_run` waits synchronously (one `runCmd` event) and returns normally
iff the child's exit code is 0; a non-zero exit code raises `SystemExit`
with message `command failed: <command joined with spaces>`, with no retry,
no timeout and no output capture (the trace holds exactly the one
synchronous invocation and the message is built only from the command). -/
theorem c3_run_gating (command : List Str) (cwd : Str) (rc : Int) :
    (runProc command cwd rc = ([Event.runCmd command cwd rc], none) ↔ rc = 0) ∧
    (rc ≠ 0 →
      runProc command cwd rc =
        ([Event.runCmd command cwd rc],
         some (Err.sysExit (str "command failed: " ++ joinSpace command)))) := by
  refine ⟨⟨fun h => ?_, fun h => by simp [runProc, h]⟩, fun h => by simp [runProc, h]⟩
  by_contra hrc
  simp [runProc, hrc] at h

theorem c3_run_gating_witness :
    runProc [str "doxygen"] (str "/r") 1 =
      ([Event.runCmd [str "doxygen"] (str "/r") 1],
       some (Err.sysExit (str "command failed: " ++ joinSpace [str "doxygen"]))) :=
  (c3_run_gating [str "doxygen"] (str "/r") 1).2 (by decide)

/-- C4: with the Doxygen template missing, `generate_source_docs` aborts via
`SystemExit` (exit status 1, non-zero) naming the missing path, with an
empty event trace — so before any subprocess; likewise `generate_user_docs`
for a missing `mkdocs.yml`. -/
theorem c4_missing_file_aborts (cwd : Str) (env : Env) (fs : FS) :
    (fs.pathExists (doxyfilePath (repo_root cwd env.moduleFile)) = false →
       generate_source_docs cwd env fs =
         ([], fs, some (Err.sysExit
           (str "missing Doxygen config: " ++ doxyfilePath (repo_root cwd env.moduleFile))))) ∧
    (fs.pathExists (mkdocsYml (repo_root cwd env.moduleFile)) = false →
       generate_user_docs cwd env fs =
         ([], fs, some (Err.sysExit
           (str "missing MkDocs config: " ++ mkdocsYml (repo_root cwd env.moduleFile))))) := by
  constructor <;> intro h <;> simp [generate_source_docs, generate_user_docs, h]

theorem c4_missing_file_aborts_witness :
    (FS.pathExists ⟨[], []⟩
        (doxyfilePath (repo_root (str "/c") (str "/m/tools/toolbox/documentation.py"))) = false) ∧
    generate_source_docs (str "/c") ⟨str "/m/tools/toolbox/documentation.py", 0, 0, false, false⟩ ⟨[], []⟩ =
      ([], ⟨[], []⟩, some (Err.sysExit
        (str "missing Doxygen config: "
          ++ doxyfilePath (repo_root (str "/c") (str "/m/tools/toolbox/documentation.py"))))) :=
  ⟨by decide,
   (c4_missing_file_aborts (str "/c") ⟨str "/m/tools/toolbox/documentation.py", 0, 0, false, false⟩
     ⟨[], []⟩).1 (by decide)⟩

/-- C5: if a `KeyboardInterrupt` arrives while waiting on the `mkdocs serve`
child, the handler runs `terminate`, then the bounded `wait(timeout=5)`,
and `kill` happens exactly when that bounded wait does not complete — never
before `terminate` and the wait — after which `generate_user_docs` returns
normally (result `none`, no propagated error). -/
theorem c5_interrupt_shutdown (cwd : Str) (env : Env) (fs : FS)
    (hex : fs.pathExists (mkdocsYml (repo_root cwd env.moduleFile)) = true)
    (hbuild : env.buildExit = 0)
    (hint : env.interrupted = true) :
    generate_user_docs cwd env fs =
      ([Event.runCmd [str "mkdocs", str "build", str "--config-file",
          mkdocsYml (repo_root cwd env.moduleFile)] (repo_root cwd env.moduleFile) 0,
        Event.popen [str "mkdocs", str "serve", str "--config-file",
          mkdocsYml (repo_root cwd env.moduleFile)] (repo_root cwd env.moduleFile),
        Event.waitChild, Event.terminate, Event.waitTimeout 5]
        ++ (if env.serveGraceful then [] else [Event.kill]), fs, none) := by
  simp [generate_user_docs, runProc, hex, hbuild, hint]

theorem c5_interrupt_shutdown_witness :
    generate_user_docs (str "/c") ⟨str "/m/tools/toolbox/documentation.py", 0, 0, true, false⟩
        ⟨[], [(str "/m/mkdocs.yml", str "site_name: x")]⟩ =
      ([Event.runCmd [str "mkdocs", str "build", str "--config-file", str "/m/mkdocs.yml"]
          (str "/m") 0,
        Event.popen [str "mkdocs", str "serve", str "--config-file", str "/m/mkdocs.yml"]
          (str "/m"),
        Event.waitChild, Event.terminate, Event.waitTimeout 5] ++ [Event.kill],
       ⟨[], [(str "/m/mkdocs.yml", str "site_name: x")]⟩, none) := by
  have h := c5_interrupt_shutdown (str "/c")
    ⟨str "/m/tools/toolbox/documentation.py", 0, 0, true, false⟩
    ⟨[], [(str "/m/mkdocs.yml", str "site_name: x")]⟩ (by decide) (by decide) (by decide)
  simpa using h

/-- C10: the behaviour is independent of the process working directory:
with an absolute module file location, two runs differing only in the
working directory produce identical traces (including every path read or
written and the `cwd` handed to every child process), identical filesystem
results, and identical outcomes — for both entry points and for `main`. -/
theorem c10_cwd_independent (env : Env) (fs : FS)
    (habs : env.moduleFile.head? = some '/') (cwd1 cwd2 : Str) :
    generate_source_docs cwd1 env fs = generate_source_docs cwd2 env fs ∧
    generate_user_docs cwd1 env fs = generate_user_docs cwd2 env fs ∧
    mainEntry cwd1 env fs = mainEntry cwd2 env fs := by
  have hr : repo_root cwd1 env.moduleFile = repo_root cwd2 env.moduleFile := by
    simp [repo_root, resolvePath, habs]
  unfold mainEntry generate_source_docs generate_user_docs
  rw [hr]
  exact ⟨rfl, rfl, rfl⟩

theorem c10_cwd_independent_witness :
    ((str "/m/tools/toolbox/documentation.py").head? = some '/') ∧
    mainEntry (str "/aaa") ⟨str "/m/tools/toolbox/documentation.py", 0, 0, false, true⟩ ⟨[], []⟩ =
      mainEntry (str "/bbb") ⟨str "/m/tools/toolbox/documentation.py", 0, 0, false, true⟩ ⟨[], []⟩ :=
  ⟨by decide,
   (c10_cwd_independent ⟨str "/m/tools/toolbox/documentation.py", 0, 0, false, true⟩ ⟨[], []⟩
     (by decide) (str "/aaa") (str "/bbb")).2.2⟩

theorem lookupFile_setFile_ne (files : List (Str × Str)) (p q t : Str) (h : q ≠ p) :
    lookupFile (setFile files p t) q = lookupFile files q := by
  induction files with
  | nil => simp [setFile, lookupFile, Ne.symm h]
  | cons pc rest ih =>
    by_cases h1 : pc.1 = p
    · simp [setFile, lookupFile, h1, Ne.symm h]
    · by_cases h2 : pc.1 = q
      · simp [setFile, lookupFile, h1, h2, h]
      · simp [setFile, lookupFile, h1, h2, ih]

theorem mkdirParents_files (l : List Str) (fs : FS) : ((mkdirParents fs l).1).files = fs.files := by
  induction l generalizing fs with
  | nil => rfl
  | cons d ds ih =>
    unfold mkdirParents mkdirOne
    by_cases h1 : fs.isFile d
    · simp [h1]
    · by_cases h2 : memL fs.dirs d
      · simpa [h1, h2] using ih fs
      · simpa [h1, h2] using ih { fs with dirs := d :: fs.dirs }

theorem gen_ne_doxyfile (root : Str) : generatedPath root ≠ doxyfilePath root := by
  intro h
  have := congrArg List.length h
  simp [generatedPath, doxyfilePath, outputDir, str] at this

theorem prepare_writes (root : Str) (fs : FS) :
    (∀ p c, Event.writeFile p c ∈ (prepare_doxygen_config root fs).1 → p = generatedPath root) ∧
    ((prepare_doxygen_config root fs).1.filter isWriteEv).length ≤ 1 ∧
    (∀ q, q ≠ generatedPath root →
      lookupFile (prepare_doxygen_config root fs).2.1.files q = lookupFile fs.files q) := by
  cases h1 : lookupFile fs.files (doxyfilePath root) with
  | none => simp [prepare_doxygen_config, h1]
  | some text =>
    cases h2 : mkdirParents fs (neededDirs root) with
    | mk fs1 ok =>
      have hf1 : fs1.files = fs.files := by
        have h := mkdirParents_files (neededDirs root) fs
        rw [h2] at h; exact h
      cases ok with
      | false => simp [prepare_doxygen_config, h1, h2, hf1]
      | true =>
        cases h3 : writeText fs1 (generatedPath root) (prepareText root text) with
        | none => simp [prepare_doxygen_config, h1, h2, h3, isWriteEv, hf1]
        | some fs2 =>
          have hf2 : fs2.files = setFile fs1.files (generatedPath root) (prepareText root text) := by
            unfold writeText at h3
            by_cases h4 : memL fs1.dirs (generatedPath root)
            · simp [h4] at h3
            · simp [h4] at h3; rw [← h3]
          refine ⟨?_, ?_, ?_⟩
          · intro p c hm
            simp [prepare_doxygen_config, h1, h2, h3] at hm
            exact hm.1
          · simp [prepare_doxygen_config, h1, h2, h3, isWriteEv]
          · intro q hq
            simp only [prepare_doxygen_config, h1, h2, h3]
            rw [hf2, hf1]
            exact lookupFile_setFile_ne fs.files (generatedPath root) q _ hq

theorem gud_frame (cwd : Str) (env : Env) (fs : FS) :
    (∀ e ∈ (generate_user_docs cwd env fs).1, isWriteEv e = false) ∧
    (generate_user_docs cwd env fs).2.1 = fs := by
  by_cases hex : fs.pathExists (mkdocsYml (repo_root cwd env.moduleFile)) = true
  · by_cases hb : env.buildExit = 0
    · by_cases hint : env.interrupted = true
      · by_cases hg : env.serveGraceful = true
        · simp [generate_user_docs, runProc, hex, hb, hint, hg, isWriteEv]
        · simp [generate_user_docs, runProc, hex, hb, hint, hg, isWriteEv]
      · simp [generate_user_docs, runProc, hex, hb, hint, isWriteEv]
    · simp [generate_user_docs, runProc, hex, hb, isWriteEv]
  · simp [generate_user_docs, hex]

theorem gsd_frame (cwd : Str) (env : Env) (fs : FS) :
    (∀ p c, Event.writeFile p c ∈ (generate_source_docs cwd env fs).1 →
       p = generatedPath (repo_root cwd env.moduleFile)) ∧
    ((generate_source_docs cwd env fs).1.filter isWriteEv).length ≤ 1 ∧
    (∀ q, q ≠ generatedPath (repo_root cwd env.moduleFile) →
       lookupFile (generate_source_docs cwd env fs).2.1.files q = lookupFile fs.files q) := by
  by_cases hex : fs.pathExists (doxyfilePath (repo_root cwd env.moduleFile)) = true
  · obtain ⟨hw1, hw2, hw3⟩ := prepare_writes (repo_root cwd env.moduleFile) fs
    cases hp : prepare_doxygen_config (repo_root cwd env.moduleFile) fs with
    | mk e1 rest =>
      rw [hp] at hw1 hw2 hw3
      cases rest with
      | mk fs1 r1 =>
        cases r1 with
        | some e =>
          refine ⟨?_, ?_, ?_⟩
          · intro p c hm
            rw [show (generate_source_docs cwd env fs).1 = e1 by
              simp [generate_source_docs, hex, hp]] at hm
            exact hw1 p c hm
          · rw [show (generate_source_docs cwd env fs).1 = e1 by
              simp [generate_source_docs, hex, hp]]
            exact hw2
          · intro q hq
            rw [show (generate_source_docs cwd env fs).2.1 = fs1 by
              simp [generate_source_docs, hex, hp]]
            exact hw3 q hq
        | none =>
          have htr : (generate_source_docs cwd env fs).1 =
              e1 ++ [Event.runCmd [str "doxygen", generatedPath (repo_root cwd env.moduleFile)]
                (repo_root cwd env.moduleFile) env.doxygenExit] := by
            simp [generate_source_docs, hex, hp, runProc]
          have hfs : (generate_source_docs cwd env fs).2.1 = fs1 := by
            simp [generate_source_docs, hex, hp, runProc]
          refine ⟨?_, ?_, ?_⟩
          · intro p c hm
            rw [htr] at hm
            simp at hm
            exact hw1 p c hm
          · rw [htr]
            simpa [isWriteEv] using hw2
          · intro q hq
            rw [hfs]
            exact hw3 q hq
  · simp [generate_source_docs, hex]

/-- C7: the only file this program ever writes is the generated Doxygen
configuration at `<root>/build/docs/doxygen/Doxyfile.generated`; a full run
of `main` performs at most one write event, every write event targets that
path, every other path's content (in particular the template
`<root>/Doxyfile`, a distinct path) is unchanged in the final filesystem. -/
theorem c7_single_write (cwd : Str) (env : Env) (fs : FS) :
    (∀ p c, Event.writeFile p c ∈ (mainEntry cwd env fs).1 →
       p = generatedPath (repo_root cwd env.moduleFile)) ∧
    (((mainEntry cwd env fs).1.filter isWriteEv).length ≤ 1) ∧
    (∀ q, q ≠ generatedPath (repo_root cwd env.moduleFile) →
       lookupFile (mainEntry cwd env fs).2.1.files q = lookupFile fs.files q) ∧
    generatedPath (repo_root cwd env.moduleFile) ≠ doxyfilePath (repo_root cwd env.moduleFile) := by
  obtain ⟨hs1, hs2, hs3⟩ := gsd_frame cwd env fs
  cases hm : generate_source_docs cwd env fs with
  | mk e1 rest =>
    rw [hm] at hs1 hs2 hs3
    cases rest with
    | mk fs1 r1 =>
      cases r1 with
      | some e =>
        have h1 : (mainEntry cwd env fs) = (e1, fs1, some e) := by simp [mainEntry, hm]
        rw [h1]
        exact ⟨hs1, hs2, hs3, gen_ne_doxyfile _⟩
      | none =>
        obtain ⟨hu1, hu2⟩ := gud_frame cwd env fs1
        cases hg : generate_user_docs cwd env fs1 with
        | mk e2 rest2 =>
          rw [hg] at hu1 hu2
          cases rest2 with
          | mk fs2 r2 =>
            have hu2' : fs2 = fs1 := hu2
            have h1 : mainEntry cwd env fs = (e1 ++ e2, fs2, r2) := by simp [mainEntry, hm, hg]
            rw [h1]
            refine ⟨?_, ?_, ?_, gen_ne_doxyfile _⟩
            · intro p c hmem
              simp at hmem
              rcases hmem with h | h
              · exact hs1 p c h
              · exact absurd (hu1 _ h) (by simp [isWriteEv])
            · have he2 : e2.filter isWriteEv = [] := by
                rw [List.filter_eq_nil_iff]
                intro a ha
                simp [hu1 a ha]
              have : ((e1 ++ e2).filter isWriteEv).length ≤ 1 := by
                rw [List.filter_append, he2, List.append_nil]
                exact hs2
              exact this
            · intro q hq
              have : lookupFile fs2.files q = lookupFile fs.files q := by
                rw [hu2']
                exact hs3 q hq
              exact this

theorem c7_single_write_witness :
    ((str "/m/Doxyfile" : Str) ≠
        generatedPath (repo_root (str "/c") (str "/m/tools/toolbox/documentation.py"))) ∧
    lookupFile
        (mainEntry (str "/c") ⟨str "/m/tools/toolbox/documentation.py", 0, 0, false, true⟩
            ⟨[str "/m"], [(str "/m/Doxyfile", str "NAME = @PROJECT_NAME@")]⟩).2.1.files
        (str "/m/Doxyfile")
      = lookupFile [(str "/m/Doxyfile", str "NAME = @PROJECT_NAME@")] (str "/m/Doxyfile") :=
  ⟨by decide,
   (c7_single_write (str "/c") ⟨str "/m/tools/toolbox/documentation.py", 0, 0, false, true⟩
       ⟨[str "/m"], [(str "/m/Doxyfile", str "NAME = @PROJECT_NAME@")]⟩).2.2.1
     (str "/m/Doxyfile") (by decide)⟩

theorem prepare_cases (root : Str) (fs : FS) :
    (∃ fs1 r, prepare_doxygen_config root fs = ([], fs1, some r)) ∨
    (∃ fs1, prepare_doxygen_config root fs =
        ([Event.mkdirP (outputDir root)], fs1, some Err.exn)) ∨
    (∃ fs2 content, prepare_doxygen_config root fs =
        ([Event.mkdirP (outputDir root), Event.writeFile (generatedPath root) content],
         fs2, none)) := by
  unfold prepare_doxygen_config
  cases h1 : lookupFile fs.files (doxyfilePath root) with
  | none => exact Or.inl ⟨fs, Err.exn, rfl⟩
  | some text =>
    cases h2 : mkdirParents fs (neededDirs root) with
    | mk fs1 ok =>
      cases ok with
      | false => exact Or.inl ⟨fs1, Err.exn, rfl⟩
      | true =>
        cases h3 : writeText fs1 (generatedPath root) (prepareText root text) with
        | none =>
          refine Or.inr (Or.inl ⟨fs1, ?_⟩)
          simp [h3]
        | some fs2 =>
          refine Or.inr (Or.inr ⟨fs2, prepareText root text, ?_⟩)
          simp [h3]

theorem isDoxygenRun_dox (root : Str) (rc : Int) :
    isDoxygenRun (Event.runCmd (doxygenCmdOf root) root rc) = true := rfl

theorem isBuildRun_dox (root : Str) (rc : Int) :
    isBuildRun (Event.runCmd (doxygenCmdOf root) root rc) = false := rfl

theorem isBuildRun_build (root : Str) (rc : Int) :
    isBuildRun (Event.runCmd (mkdocsBuildCmd root) root rc) = true := rfl

theorem isDoxygenRun_build (root : Str) (rc : Int) :
    isDoxygenRun (Event.runCmd (mkdocsBuildCmd root) root rc) = false := rfl

theorem isServeStart_serve (root : Str) :
    isServeStart (Event.popen (mkdocsServeCmd root) root) = true := rfl

/-- C6: external invocations are strictly sequential and success-gated: in
`main`, the whole source-docs phase (doxygen) precedes the user-docs phase
(mkdocs); `mkdocs serve` is started only if `mkdocs build` was invoked
first and exited 0 (and then doxygen had also exited 0); `mkdocs build` is
invoked only after a `doxygen` run that exited 0. -/
theorem c6_sequenced_gated (cwd : Str) (env : Env) (fs : FS) :
    (∃ trS trU, (mainEntry cwd env fs).1 = trS ++ trU ∧
       trS = (generate_source_docs cwd env fs).1 ∧
       (∀ e ∈ trS, isBuildRun e = false ∧ isServeStart e = false) ∧
       (∀ e ∈ trU, isDoxygenRun e = false)) ∧
    ((∃ e ∈ (mainEntry cwd env fs).1, isServeStart e = true) →
       env.doxygenExit = 0 ∧ env.buildExit = 0 ∧
       ∃ pre post, (mainEntry cwd env fs).1 =
           pre ++ Event.runCmd (mkdocsBuildCmd (repo_root cwd env.moduleFile))
             (repo_root cwd env.moduleFile) 0 :: post ∧
         (∀ e ∈ pre, isServeStart e = false) ∧ (∃ e ∈ post, isServeStart e = true)) ∧
    ((∃ e ∈ (mainEntry cwd env fs).1, isBuildRun e = true) →
       env.doxygenExit = 0 ∧
       ∃ pre post, (mainEntry cwd env fs).1 =
           pre ++ Event.runCmd (doxygenCmdOf (repo_root cwd env.moduleFile))
             (repo_root cwd env.moduleFile) 0 :: post ∧
         (∀ e ∈ pre, isBuildRun e = false ∧ isServeStart e = false) ∧
         (∃ e ∈ post, isBuildRun e = true)) := by
  by_cases hex : fs.pathExists (doxyfilePath (repo_root cwd env.moduleFile)) = true
  · rcases prepare_cases (repo_root cwd env.moduleFile) fs with ⟨fs1, r, hp⟩ | ⟨fs1, hp⟩ |
      ⟨fs2, content, hp⟩
    · -- template unreadable: empty trace
      have hS : (generate_source_docs cwd env fs).1 = [] := by
        simp [generate_source_docs, hex, hp]
      have htr : (mainEntry cwd env fs).1 = [] := by
        simp [mainEntry, generate_source_docs, hex, hp]
      refine ⟨⟨[], [], by simp [htr], hS.symm, by simp, by simp⟩, ?_, ?_⟩ <;>
        · rintro ⟨e, he, -⟩
          rw [htr] at he
          simp at he
    · -- mkdir failed: only the mkdir event
      have hS : (generate_source_docs cwd env fs).1 =
          [Event.mkdirP (outputDir (repo_root cwd env.moduleFile))] := by
        simp [generate_source_docs, hex, hp]
      have htr : (mainEntry cwd env fs).1 =
          [Event.mkdirP (outputDir (repo_root cwd env.moduleFile))] := by
        simp [mainEntry, generate_source_docs, hex, hp]
      refine ⟨⟨[Event.mkdirP (outputDir (repo_root cwd env.moduleFile))], [],
          by simp [htr], hS.symm, ?_, by simp⟩, ?_, ?_⟩
      · intro e he
        simp at he
        subst he
        exact ⟨rfl, rfl⟩
      all_goals
        rintro ⟨e, he, hee⟩
        rw [htr] at he
        simp at he
        subst he
        simp [isServeStart, isBuildRun] at hee
    · -- prepare succeeded
      have hgsd : generate_source_docs cwd env fs =
          ([Event.mkdirP (outputDir (repo_root cwd env.moduleFile)),
            Event.writeFile (generatedPath (repo_root cwd env.moduleFile)) content,
            Event.runCmd (doxygenCmdOf (repo_root cwd env.moduleFile))
               (repo_root cwd env.moduleFile) env.doxygenExit],
           fs2,
           if env.doxygenExit = 0 then none
           else some (Err.sysExit (str "command failed: "
             ++ joinSpace (doxygenCmdOf (repo_root cwd env.moduleFile))))) := by
        by_cases hdx : env.doxygenExit = 0 <;>
          simp [generate_source_docs, hex, hp, runProc, doxygenCmdOf, hdx]
      by_cases hdx : env.doxygenExit = 0
      · -- doxygen succeeded: user-docs phase runs
        rw [if_pos hdx] at hgsd
        rw [hdx] at hgsd
        by_cases hyml : fs2.pathExists (mkdocsYml (repo_root cwd env.moduleFile)) = true
        · by_cases hbe : env.buildExit = 0
          · -- build succeeded: serve phase
            have hserve : ∃ sfx, (generate_user_docs cwd env fs2).1 =
                [Event.runCmd (mkdocsBuildCmd (repo_root cwd env.moduleFile))
                   (repo_root cwd env.moduleFile) 0,
                 Event.popen (mkdocsServeCmd (repo_root cwd env.moduleFile))
                   (repo_root cwd env.moduleFile),
                 Event.waitChild] ++ sfx ∧
                ∀ e ∈ sfx, isDoxygenRun e = false ∧ isBuildRun e = false ∧
                  isServeStart e = false := by
              by_cases hint : env.interrupted = true
              · by_cases hg : env.serveGraceful = true
                · refine ⟨[Event.terminate, Event.waitTimeout 5], ?_, ?_⟩
                  · simp [generate_user_docs, runProc, hyml, hbe, hint, hg,
                      mkdocsBuildCmd, mkdocsServeCmd]
                  · intro e he
                    simp at he
                    rcases he with rfl | rfl <;> exact ⟨rfl, rfl, rfl⟩
                · refine ⟨[Event.terminate, Event.waitTimeout 5, Event.kill], ?_, ?_⟩
                  · simp [generate_user_docs, runProc, hyml, hbe, hint, hg,
                      mkdocsBuildCmd, mkdocsServeCmd]
                  · intro e he
                    simp at he
                    rcases he with rfl | rfl | rfl <;> exact ⟨rfl, rfl, rfl⟩
              · refine ⟨[], ?_, by simp⟩
                simp [generate_user_docs, runProc, hyml, hbe, hint,
                  mkdocsBuildCmd, mkdocsServeCmd]
            obtain ⟨sfx, hU, hq⟩ := hserve
            have htr : (mainEntry cwd env fs).1 =
                [Event.mkdirP (outputDir (repo_root cwd env.moduleFile)),
                 Event.writeFile (generatedPath (repo_root cwd env.moduleFile)) content,
                 Event.runCmd (doxygenCmdOf (repo_root cwd env.moduleFile))
                   (repo_root cwd env.moduleFile) 0,
                 Event.runCmd (mkdocsBuildCmd (repo_root cwd env.moduleFile))
                   (repo_root cwd env.moduleFile) 0,
                 Event.popen (mkdocsServeCmd (repo_root cwd env.moduleFile))
                   (repo_root cwd env.moduleFile),
                 Event.waitChild] ++ sfx := by
              cases hu : generate_user_docs cwd env fs2 with
              | mk e2 rest2 =>
                rw [hu] at hU
                simp only [mainEntry, hgsd, hu]
                simpa using hU
            refine ⟨?_, ?_, ?_⟩
            · refine ⟨[Event.mkdirP (outputDir (repo_root cwd env.moduleFile)),
                 Event.writeFile (generatedPath (repo_root cwd env.moduleFile)) content,
                 Event.runCmd (doxygenCmdOf (repo_root cwd env.moduleFile))
                   (repo_root cwd env.moduleFile) 0],
                [Event.runCmd (mkdocsBuildCmd (repo_root cwd env.moduleFile))
                   (repo_root cwd env.moduleFile) 0,
                 Event.popen (mkdocsServeCmd (repo_root cwd env.moduleFile))
                   (repo_root cwd env.moduleFile),
                 Event.waitChild] ++ sfx, ?_, by simp [hgsd], ?_, ?_⟩
              · rw [htr]; simp
              · intro e he
                simp at he
                rcases he with rfl | rfl | rfl
                · exact ⟨rfl, rfl⟩
                · exact ⟨rfl, rfl⟩
                · exact ⟨isBuildRun_dox _ _, rfl⟩
              · intro e he
                simp at he
                rcases he with rfl | rfl | rfl | he
                · exact isDoxygenRun_build _ _
                · rfl
                · rfl
                · exact (hq e he).1
            · intro _
              refine ⟨hdx, hbe,
                ⟨[Event.mkdirP (outputDir (repo_root cwd env.moduleFile)),
                  Event.writeFile (generatedPath (repo_root cwd env.moduleFile)) content,
                  Event.runCmd (doxygenCmdOf (repo_root cwd env.moduleFile))
                    (repo_root cwd env.moduleFile) 0],
                 [Event.popen (mkdocsServeCmd (repo_root cwd env.moduleFile))
                    (repo_root cwd env.moduleFile), Event.waitChild] ++ sfx, ?_, ?_, ?_⟩⟩
              · rw [htr]; simp
              · intro e he
                simp at he
                rcases he with rfl | rfl | rfl <;> rfl
              · refine ⟨Event.popen (mkdocsServeCmd (repo_root cwd env.moduleFile))
                  (repo_root cwd env.moduleFile), ?_, isServeStart_serve _⟩
                simp
            · intro _
              refine ⟨hdx,
                ⟨[Event.mkdirP (outputDir (repo_root cwd env.moduleFile)),
                  Event.writeFile (generatedPath (repo_root cwd env.moduleFile)) content],
                 [Event.runCmd (mkdocsBuildCmd (repo_root cwd env.moduleFile))
                    (repo_root cwd env.moduleFile) 0,
                  Event.popen (mkdocsServeCmd (repo_root cwd env.moduleFile))
                    (repo_root cwd env.moduleFile), Event.waitChild] ++ sfx, ?_, ?_, ?_⟩⟩
              · rw [htr]; simp
              · intro e he
                simp at he
                rcases he with rfl | rfl <;> exact ⟨rfl, rfl⟩
              · refine ⟨Event.runCmd (mkdocsBuildCmd (repo_root cwd env.moduleFile))
                  (repo_root cwd env.moduleFile) 0, ?_, isBuildRun_build _ _⟩
                simp
          · -- build failed: trace ends at the failing build
            have htr : (mainEntry cwd env fs).1 =
                [Event.mkdirP (outputDir (repo_root cwd env.moduleFile)),
                 Event.writeFile (generatedPath (repo_root cwd env.moduleFile)) content,
                 Event.runCmd (doxygenCmdOf (repo_root cwd env.moduleFile))
                   (repo_root cwd env.moduleFile) 0,
                 Event.runCmd (mkdocsBuildCmd (repo_root cwd env.moduleFile))
                   (repo_root cwd env.moduleFile) env.buildExit] := by
              simp only [mainEntry, hgsd]
              simp [generate_user_docs, runProc, hyml, hbe, mkdocsBuildCmd]
            refine ⟨?_, ?_, ?_⟩
            · refine ⟨[Event.mkdirP (outputDir (repo_root cwd env.moduleFile)),
                 Event.writeFile (generatedPath (repo_root cwd env.moduleFile)) content,
                 Event.runCmd (doxygenCmdOf (repo_root cwd env.moduleFile))
                   (repo_root cwd env.moduleFile) 0],
                [Event.runCmd (mkdocsBuildCmd (repo_root cwd env.moduleFile))
                   (repo_root cwd env.moduleFile) env.buildExit],
                ?_, by simp [hgsd], ?_, ?_⟩
              · rw [htr]; simp
              · intro e he
                simp at he
                rcases he with rfl | rfl | rfl
                · exact ⟨rfl, rfl⟩
                · exact ⟨rfl, rfl⟩
                · exact ⟨isBuildRun_dox _ _, rfl⟩
              · intro e he
                simp at he
                subst he
                exact isDoxygenRun_build _ _
            · rintro ⟨e, he, hee⟩
              rw [htr] at he
              simp at he
              rcases he with rfl | rfl | rfl | rfl
              · simp [isServeStart] at hee
              · simp [isServeStart] at hee
              · simp [isServeStart] at hee
              · simp [isServeStart] at hee
            · intro _
              refine ⟨hdx,
                ⟨[Event.mkdirP (outputDir (repo_root cwd env.moduleFile)),
                  Event.writeFile (generatedPath (repo_root cwd env.moduleFile)) content],
                 [Event.runCmd (mkdocsBuildCmd (repo_root cwd env.moduleFile))
                    (repo_root cwd env.moduleFile) env.buildExit], ?_, ?_, ?_⟩⟩
              · rw [htr]; simp
              · intro e he
                simp at he
                rcases he with rfl | rfl <;> exact ⟨rfl, rfl⟩
              · refine ⟨Event.runCmd (mkdocsBuildCmd (repo_root cwd env.moduleFile))
                  (repo_root cwd env.moduleFile) env.buildExit, ?_, isBuildRun_build _ _⟩
                simp
        · -- mkdocs.yml missing: user phase aborts before any mkdocs event
          have htr : (mainEntry cwd env fs).1 =
              [Event.mkdirP (outputDir (repo_root cwd env.moduleFile)),
               Event.writeFile (generatedPath (repo_root cwd env.moduleFile)) content,
               Event.runCmd (doxygenCmdOf (repo_root cwd env.moduleFile))
                 (repo_root cwd env.moduleFile) 0] := by
            simp only [mainEntry, hgsd]
            simp [generate_user_docs, hyml]
          refine ⟨?_, ?_, ?_⟩
          · refine ⟨[Event.mkdirP (outputDir (repo_root cwd env.moduleFile)),
               Event.writeFile (generatedPath (repo_root cwd env.moduleFile)) content,
               Event.runCmd (doxygenCmdOf (repo_root cwd env.moduleFile))
                 (repo_root cwd env.moduleFile) 0], [],
              ?_, by simp [hgsd], ?_, by simp⟩
            · rw [htr]; simp
            · intro e he
              simp at he
              rcases he with rfl | rfl | rfl
              · exact ⟨rfl, rfl⟩
              · exact ⟨rfl, rfl⟩
              · exact ⟨isBuildRun_dox _ _, rfl⟩
          all_goals
            rintro ⟨e, he, hee⟩
            rw [htr] at he
            simp at he
            rcases he with rfl | rfl | rfl
            · simp [isServeStart, isBuildRun] at hee
            · simp [isServeStart, isBuildRun] at hee
            · first
              | simp [isServeStart] at hee
              | (rw [isBuildRun_dox] at hee; exact absurd hee (by simp))
      · -- doxygen failed: SystemExit before the user phase
        rw [if_neg hdx] at hgsd
        have htr : (mainEntry cwd env fs).1 =
            [Event.mkdirP (outputDir (repo_root cwd env.moduleFile)),
             Event.writeFile (generatedPath (repo_root cwd env.moduleFile)) content,
             Event.runCmd (doxygenCmdOf (repo_root cwd env.moduleFile))
               (repo_root cwd env.moduleFile) env.doxygenExit] := by
          simp only [mainEntry, hgsd]
        refine ⟨?_, ?_, ?_⟩
        · refine ⟨[Event.mkdirP (outputDir (repo_root cwd env.moduleFile)),
             Event.writeFile (generatedPath (repo_root cwd env.moduleFile)) content,
             Event.runCmd (doxygenCmdOf (repo_root cwd env.moduleFile))
               (repo_root cwd env.moduleFile) env.doxygenExit], [],
            ?_, by simp [hgsd], ?_, by simp⟩
          · rw [htr]; simp
          · intro e he
            simp at he
            rcases he with rfl | rfl | rfl
            · exact ⟨rfl, rfl⟩
            · exact ⟨rfl, rfl⟩
            · exact ⟨isBuildRun_dox _ _, rfl⟩
        all_goals
          rintro ⟨e, he, hee⟩
          rw [htr] at he
          simp at he
          rcases he with rfl | rfl | rfl
          · simp [isServeStart, isBuildRun] at hee
          · simp [isServeStart, isBuildRun] at hee
          · first
            | simp [isServeStart] at hee
            | (rw [isBuildRun_dox] at hee; exact absurd hee (by simp))
  · -- Doxyfile missing: empty trace
    have hS : (generate_source_docs cwd env fs).1 = [] := by
      simp [generate_source_docs, hex]
    have htr : (mainEntry cwd env fs).1 = [] := by
      simp [mainEntry, generate_source_docs, hex]
    refine ⟨⟨[], [], by simp [htr], hS.symm, by simp, by simp⟩, ?_, ?_⟩ <;>
      · rintro ⟨e, he, -⟩
        rw [htr] at he
        simp at he

theorem c6_sequenced_gated_witness :
    ∃ pre post,
      (mainEntry (str "/c") ⟨str "/m/tools/toolbox/documentation.py", 0, 0, false, true⟩
         ⟨[str "/m"], [(str "/m/Doxyfile", str "X"), (str "/m/mkdocs.yml", str "Y")]⟩).1 =
        pre ++ Event.runCmd
          (mkdocsBuildCmd (repo_root (str "/c") (str "/m/tools/toolbox/documentation.py")))
          (repo_root (str "/c") (str "/m/tools/toolbox/documentation.py")) 0 :: post ∧
      (∀ e ∈ pre, isServeStart e = false) ∧ (∃ e ∈ post, isServeStart e = true) :=
  ((c6_sequenced_gated (str "/c") ⟨str "/m/tools/toolbox/documentation.py", 0, 0, false, true⟩
      ⟨[str "/m"], [(str "/m/Doxyfile", str "X"), (str "/m/mkdocs.yml", str "Y")]⟩).2.1
    (by decide)).2.2

theorem mkdirOne_some_files {fs fs' : FS} {d : Str} (h : mkdirOne fs d = some fs') :
    fs'.files = fs.files := by
  unfold mkdirOne at h
  by_cases h1 : fs.isFile d
  · simp [h1] at h
  · by_cases h2 : memL fs.dirs d
    · simp [h1, h2] at h
      rw [← h]
    · simp [h1, h2] at h
      rw [← h]

theorem mkdirOne_some_mem {fs fs' : FS} {d : Str} (h : mkdirOne fs d = some fs') :
    memL fs'.dirs d = true := by
  unfold mkdirOne at h
  by_cases h1 : fs.isFile d
  · simp [h1] at h
  · by_cases h2 : memL fs.dirs d
    · simp [h1, h2] at h
      rw [← h]; exact h2
    · simp [h1, h2] at h
      rw [← h]
      simp [memL]

theorem mkdirOne_some_mono {fs fs' : FS} {d x : Str} (h : mkdirOne fs d = some fs')
    (hx : memL fs.dirs x = true) : memL fs'.dirs x = true := by
  unfold mkdirOne at h
  by_cases h1 : fs.isFile d
  · simp [h1] at h
  · by_cases h2 : memL fs.dirs d
    · simp [h1, h2] at h
      rw [← h]; exact hx
    · simp [h1, h2] at h
      rw [← h]
      by_cases h3 : d = x <;> simp [memL, h3, hx]

theorem mkdirParents_mono (l : List Str) (fs : FS) (x : Str) (hx : memL fs.dirs x = true) :
    memL (mkdirParents fs l).1.dirs x = true := by
  induction l generalizing fs with
  | nil => exact hx
  | cons d ds ih =>
    unfold mkdirParents
    cases h : mkdirOne fs d with
    | none => exact hx
    | some fsa => exact ih fsa (mkdirOne_some_mono h hx)

theorem mkdirParents_true_mem {l : List Str} {fs fs1 : FS}
    (h : mkdirParents fs l = (fs1, true)) : ∀ d ∈ l, memL fs1.dirs d = true := by
  induction l generalizing fs with
  | nil => simp
  | cons d ds ih =>
    intro x hx
    unfold mkdirParents at h
    cases hm : mkdirOne fs d with
    | none => simp [hm] at h
    | some fsa =>
      simp only [hm] at h
      rcases List.mem_cons.mp hx with rfl | hx2
      · have h1 := mkdirOne_some_mem hm
        have := mkdirParents_mono ds fsa x h1
        rw [h] at this
        exact this
      · exact ih h x hx2

theorem mkdirParents_true_noFile {l : List Str} {fs fs1 : FS}
    (h : mkdirParents fs l = (fs1, true)) : ∀ d ∈ l, lookupFile fs.files d = none := by
  induction l generalizing fs with
  | nil => simp
  | cons d ds ih =>
    intro x hx
    unfold mkdirParents at h
    cases hm : mkdirOne fs d with
    | none => simp [hm] at h
    | some fsa =>
      simp only [hm] at h
      have hnf : fs.isFile d = false := by
        cases hisf : fs.isFile d
        · rfl
        · simp [mkdirOne, hisf] at hm
      rcases List.mem_cons.mp hx with rfl | hx2
      · unfold FS.isFile at hnf
        cases hl : lookupFile fs.files x
        · rfl
        · rw [hl] at hnf; simp at hnf
      · have hfa : fsa.files = fs.files := mkdirOne_some_files hm
        have := ih h x hx2
        rw [hfa] at this
        exact this

theorem mkdirParents_stable {l : List Str} {g : FS}
    (h : ∀ d ∈ l, lookupFile g.files d = none ∧ memL g.dirs d = true) :
    mkdirParents g l = (g, true) := by
  induction l with
  | nil => rfl
  | cons d ds ih =>
    obtain ⟨h1, h2⟩ := h d (by simp)
    have hone : mkdirOne g d = some g := by
      unfold mkdirOne FS.isFile
      rw [h1]
      simp [h2]
    unfold mkdirParents
    rw [hone]
    exact ih (fun x hx => h x (by simp [hx]))

theorem setFile_setFile (fl : List (Str × Str)) (p c : Str) :
    setFile (setFile fl p c) p c = setFile fl p c := by
  induction fl with
  | nil => simp [setFile]
  | cons qc rest ih =>
    by_cases h : qc.1 = p
    · simp [setFile, h]
    · simp [setFile, h, ih]

theorem neededDirs_ne_gen (root : Str) : ∀ d ∈ neededDirs root, d ≠ generatedPath root := by
  intro d hd hEq
  have h3 : ∀ x : Str, root ++ x = generatedPath root → x.length = 38 := by
    intro x hx
    have := congrArg List.length hx
    simp [generatedPath, outputDir, str] at this
    omega
  simp [neededDirs] at hd
  rcases hd with rfl | rfl | rfl
  · have := h3 _ hEq
    simp [str] at this
  · have := h3 _ hEq
    simp [str] at this
  · have := h3 _ hEq
    simp [str] at this

theorem writeText_some {fs1 fs2 : FS} {p c : Str}
    (h : writeText fs1 p c = some fs2) :
    memL fs1.dirs p = false ∧ fs2.dirs = fs1.dirs ∧ fs2.files = setFile fs1.files p c := by
  unfold writeText at h
  cases hm : memL fs1.dirs p
  · rw [hm] at h
    simp at h
    refine ⟨rfl, ?_, ?_⟩ <;> rw [← h]
  · simp [hm] at h

/-- C9: `_prepare_doxygen_config` is idempotent: if a run succeeds, running
it again on the resulting filesystem succeeds too (the existing output
directory and generated file cause no error), produces the identical event
trace — in particular byte-identical generated content written to the same
path — and leaves the filesystem exactly as it was. -/
theorem c9_idempotent (root : Str) (fs : FS)
    (h : (prepare_doxygen_config root fs).2.2 = none) :
    prepare_doxygen_config root ((prepare_doxygen_config root fs).2.1) =
      prepare_doxygen_config root fs := by
  cases h1 : lookupFile fs.files (doxyfilePath root) with
  | none => simp [prepare_doxygen_config, h1] at h
  | some text =>
    cases h2 : mkdirParents fs (neededDirs root) with
    | mk fs1 ok =>
      cases ok with
      | false => simp [prepare_doxygen_config, h1, h2] at h
      | true =>
        cases h3 : writeText fs1 (generatedPath root) (prepareText root text) with
        | none => simp [prepare_doxygen_config, h1, h2, h3] at h
        | some fs2 =>
          have hrun1 : prepare_doxygen_config root fs =
              ([Event.mkdirP (outputDir root),
                Event.writeFile (generatedPath root) (prepareText root text)], fs2, none) := by
            simp [prepare_doxygen_config, h1, h2, h3]
          have hf1 : fs1.files = fs.files := by
            have hq := mkdirParents_files (neededDirs root) fs
            rw [h2] at hq
            exact hq
          obtain ⟨hwd, hd2, hfw⟩ := writeText_some h3
          -- second-run reads the same template text
          have hl2 : lookupFile fs2.files (doxyfilePath root) = some text := by
            rw [hfw, lookupFile_setFile_ne _ _ _ _ (Ne.symm (gen_ne_doxyfile root)), hf1, h1]
          -- the directories are already in place and still not files
          have hm2 : mkdirParents fs2 (neededDirs root) = (fs2, true) := by
            apply mkdirParents_stable
            intro d hd
            constructor
            · rw [hfw, lookupFile_setFile_ne _ _ _ _ (neededDirs_ne_gen root d hd), hf1]
              exact mkdirParents_true_noFile h2 d hd
            · rw [hd2]
              exact mkdirParents_true_mem h2 d hd
          -- rewriting the generated file is a no-op on the filesystem
          have hw2 : writeText fs2 (generatedPath root) (prepareText root text) = some fs2 := by
            have hnm : memL fs2.dirs (generatedPath root) = false := by
              rw [hd2]
              exact hwd
            unfold writeText
            rw [hnm]
            simp only [Bool.false_eq_true, if_false, Option.some.injEq]
            rw [hfw, setFile_setFile, ← hfw]
          rw [hrun1]
          simp [prepare_doxygen_config, hl2, hm2, hw2]

theorem c9_idempotent_witness :
    prepare_doxygen_config (str "/r")
        ((prepare_doxygen_config (str "/r")
            ⟨[str "/r"], [(str "/r/Doxyfile", str "A = @PROJECT_VERSION@")]⟩).2.1) =
      prepare_doxygen_config (str "/r")
        ⟨[str "/r"], [(str "/r/Doxyfile", str "A = @PROJECT_VERSION@")]⟩ :=
  c9_idempotent (str "/r") ⟨[str "/r"], [(str "/r/Doxyfile", str "A = @PROJECT_VERSION@")]⟩
    (by decide)

/-! ## A small prefix/substring toolkit -/

theorem take_append_self (p t : Str) : (p ++ t).take p.length = p := by
  induction p with
  | nil => rfl
  | cons a ps ih => simp [ih]

theorem drop_append_self (p t : Str) : (p ++ t).drop p.length = t := by
  induction p with
  | nil => rfl
  | cons a ps ih => simp [ih]

theorem preB_iff (p l : Str) : preB p l = true ↔ PreOf p l := by
  induction p generalizing l with
  | nil => simp [preB, PreOf]
  | cons a ps ih =>
    cases l with
    | nil =>
      simp [preB, PreOf]
    | cons b ls =>
      by_cases hab : a = b
      · subst hab
        simp only [preB, eq_self_iff_true, if_true]
        rw [ih]
        constructor
        · rintro ⟨t, rfl⟩
          exact ⟨t, rfl⟩
        · rintro ⟨t, ht⟩
          injection ht with h1 h2
          exact ⟨t, h2⟩
      · simp only [preB, if_neg hab]
        constructor
        · intro h
          exact absurd h (by simp)
        · rintro ⟨t, ht⟩
          injection ht with h1 h2
          exact absurd h1 hab

theorem preB_false_iff (p l : Str) : preB p l = false ↔ ¬ PreOf p l := by
  rw [← preB_iff]
  cases preB p l <;> simp

theorem PreOf_take {p l : Str} (h : PreOf p l) : l.take p.length = p := by
  obtain ⟨t, rfl⟩ := h
  exact take_append_self p t

theorem PreOf_of_take (l : Str) (n : Nat) : PreOf (l.take n) l :=
  ⟨l.drop n, l.take_append_drop n⟩

theorem PreOf_length_le {p l : Str} (h : PreOf p l) : p.length ≤ l.length := by
  obtain ⟨t, rfl⟩ := h
  simp

theorem InfOf_iff_drop (p l : Str) : InfOf p l ↔ ∃ i, PreOf p (l.drop i) := by
  constructor
  · rintro ⟨a, b, rfl⟩
    refine ⟨a.length, b, ?_⟩
    rw [List.append_assoc, drop_append_self]
  · rintro ⟨i, t, ht⟩
    exact ⟨l.take i, t, by rw [List.append_assoc, ht, l.take_append_drop i]⟩

theorem InfOf_cons_iff (p : Str) (c : Char) (rest : Str) :
    InfOf p (c :: rest) ↔ PreOf p (c :: rest) ∨ InfOf p rest := by
  constructor
  · rintro ⟨a, b, hab⟩
    cases a with
    | nil => exact Or.inl ⟨b, by simpa using hab⟩
    | cons x xs =>
      injection hab with h1 h2
      exact Or.inr ⟨xs, b, h2⟩
  · rintro (⟨t, ht⟩ | ⟨a, b, hab⟩)
    · exact ⟨[], t, by simpa using ht⟩
    · exact ⟨c :: a, b, by rw [← hab]; rfl⟩

theorem findOcc_none {pat s : Str} (h : findOcc pat s = none) : ¬ InfOf pat s := by
  induction s with
  | nil =>
    unfold findOcc at h
    rintro ⟨a, b, hab⟩
    rcases List.append_eq_nil.mp hab with ⟨h1, h2⟩
    rcases List.append_eq_nil.mp h1 with ⟨rfl, rfl⟩
    simp [preB] at h
  | cons c rest ih =>
    unfold findOcc at h
    by_cases hp : preB pat (c :: rest) = true
    · simp [hp] at h
    · rw [if_neg hp] at h
      intro hinf
      rcases (InfOf_cons_iff pat c rest).mp hinf with hpre | hinf2
      · exact hp ((preB_iff _ _).mpr hpre)
      · cases hf : findOcc pat rest with
        | none => exact ih hf hinf2
        | some j => simp [hf] at h

theorem findOcc_some {pat s : Str} {i : Nat} (h : findOcc pat s = some i) :
    PreOf pat (s.drop i) ∧ ∀ j, j < i → ¬ PreOf pat (s.drop j) := by
  induction s generalizing i with
  | nil =>
    unfold findOcc at h
    by_cases hp : preB pat [] = true
    · rw [if_pos hp] at h
      injection h with h0
      subst h0
      exact ⟨(preB_iff _ _).mp hp, fun j hj => absurd hj (by omega)⟩
    · simp [hp] at h
  | cons c rest ih =>
    unfold findOcc at h
    by_cases hp : preB pat (c :: rest) = true
    · rw [if_pos hp] at h
      injection h with h0
      subst h0
      exact ⟨(preB_iff _ _).mp hp, fun j hj => absurd hj (by omega)⟩
    · rw [if_neg hp] at h
      cases hf : findOcc pat rest with
      | none => simp [hf] at h
      | some j =>
        rw [hf] at h
        simp at h
        subst h
        obtain ⟨hj1, hj2⟩ := ih hf
        refine ⟨hj1, ?_⟩
        intro k hk
        cases k with
        | zero =>
          simp only [List.drop_zero]
          exact fun hc => hp ((preB_iff _ _).mpr hc)
        | succ k2 =>
          simpa using hj2 k2 (by omega)

/-! ## Unfolding principles for the fuelled scanners -/

theorem preB_nil_iff (p : Str) : preB p [] = true ↔ p = [] := by
  cases p <;> simp [preB]

theorem findOcc_nil {old : Str} (hold : old ≠ []) : findOcc old [] = none := by
  unfold findOcc
  rw [if_neg]
  intro hc
  exact hold ((preB_nil_iff old).mp hc)

theorem pyReplaceF_congr (old val : Str) (hold : old ≠ []) :
    ∀ f g s, s.length ≤ f → s.length ≤ g →
      pyReplaceF old val f s = pyReplaceF old val g s := by
  intro f
  induction f with
  | zero =>
    intro g s hf hg
    have hs : s = [] := List.length_eq_zero.mp (by omega)
    subst hs
    cases g with
    | zero => rfl
    | succ g2 => simp [pyReplaceF, findOcc_nil hold]
  | succ f2 ih =>
    intro g s hf hg
    cases g with
    | zero =>
      have hs : s = [] := List.length_eq_zero.mp (by omega)
      subst hs
      simp [pyReplaceF, findOcc_nil hold]
    | succ g2 =>
      cases hocc : findOcc old s with
      | none => simp [pyReplaceF, hocc]
      | some i =>
        simp only [pyReplaceF, hocc]
        have hlen : (s.drop (i + old.length)).length ≤ f2 ∧
            (s.drop (i + old.length)).length ≤ g2 := by
          have h1 : 1 ≤ old.length := List.length_pos.mpr hold
          have h2 : 1 ≤ s.length := by
            rcases s with _ | ⟨c, rest⟩
            · rw [findOcc_nil hold] at hocc
              exact absurd hocc (by simp)
            · simp
          simp only [List.length_drop]
          omega
        rw [ih g2 (s.drop (i + old.length)) hlen.1 hlen.2]

theorem pyReplace_none {s old val : Str} (hold : old ≠ []) (h : findOcc old s = none) :
    pyReplace s old val = s := by
  cases old with
  | nil => exact absurd rfl hold
  | cons o os =>
    cases s with
    | nil => rfl
    | cons c rest =>
      show pyReplaceF (o :: os) val (c :: rest).length (c :: rest) = _
      simp only [List.length_cons, pyReplaceF, h]

theorem pyReplace_found {s old val : Str} (hold : old ≠ []) {i : Nat}
    (h : findOcc old s = some i) :
    pyReplace s old val = s.take i ++ val ++ pyReplace (s.drop (i + old.length)) old val := by
  cases old with
  | nil => exact absurd rfl hold
  | cons o os =>
    cases s with
    | nil =>
      rw [findOcc_nil hold] at h
      exact absurd h (by simp)
    | cons c rest =>
      show pyReplaceF (o :: os) val (c :: rest).length (c :: rest) = _
      have hstep : pyReplaceF (o :: os) val (c :: rest).length (c :: rest) =
          (c :: rest).take i ++ val ++
            pyReplaceF (o :: os) val rest.length ((c :: rest).drop (i + (o :: os).length)) := by
        simp only [List.length_cons, pyReplaceF, h]
      rw [hstep]
      have hrec : pyReplaceF (o :: os) val rest.length ((c :: rest).drop (i + (o :: os).length)) =
          pyReplace ((c :: rest).drop (i + (o :: os).length)) (o :: os) val := by
        show _ = pyReplaceF (o :: os) val ((c :: rest).drop (i + (o :: os).length)).length _
        apply pyReplaceF_congr _ _ hold
        · simp only [List.length_drop, List.length_cons]
          omega
        · exact le_rfl
      rw [hrec]

theorem matchOD_pos {s : Str} {n : Nat} (h : matchOD s = some n) : 1 ≤ n := by
  unfold matchOD at h
  by_cases hp : preB odLit s = true
  · rw [if_pos hp] at h
    split at h
    · injection h with h0
      omega
    · exact absurd h (by simp)
  · rw [if_neg hp] at h
    exact absurd h (by simp)

theorem matchOD_nil : matchOD [] = none := by
  unfold matchOD
  rw [if_neg]
  intro hc
  have := (preB_nil_iff odLit).mp hc
  simp [odLit, str] at this

theorem findOD_pos : ∀ {s : Str} {st : Bool} {i n : Nat},
    findOD s st = some (i, n) → 1 ≤ n ∧ i + 1 ≤ s.length := by
  intro s
  induction s with
  | nil => intro st i n h; simp [findOD] at h
  | cons c rest ih =>
    intro st i n h
    unfold findOD at h
    cases hst : st with
    | true =>
      rw [hst] at h
      rw [if_pos rfl] at h
      cases hm : matchOD (c :: rest) with
      | some n2 =>
        rw [hm] at h
        injection h with h0
        injection h0 with h1 h2
        subst h1; subst h2
        exact ⟨matchOD_pos hm, by simp⟩
      | none =>
        rw [hm] at h
        cases hf : findOD rest (c == '\n') with
        | none => rw [hf] at h; simp at h
        | some p =>
          rw [hf] at h
          cases p with
          | mk i2 n2 =>
            simp at h
            obtain ⟨h1, h2⟩ := h
            subst h1; subst h2
            obtain ⟨ha, hb⟩ := ih hf
            exact ⟨ha, by rw [List.length_cons]; omega⟩
    | false =>
      rw [hst] at h
      rw [if_neg (by simp)] at h
      cases hf : findOD rest (c == '\n') with
      | none => rw [hf] at h; simp at h
      | some p =>
        rw [hf] at h
        cases p with
        | mk i2 n2 =>
          simp at h
          obtain ⟨h1, h2⟩ := h
          subst h1; subst h2
          obtain ⟨ha, hb⟩ := ih hf
          exact ⟨ha, by simp; omega⟩

theorem reSubF_congr (repl : Str) :
    ∀ f g s st, s.length ≤ f → s.length ≤ g → reSubF repl f s st = reSubF repl g s st := by
  intro f
  induction f with
  | zero =>
    intro g s st hf hg
    have hs : s = [] := List.length_eq_zero.mp (by omega)
    subst hs
    cases g with
    | zero => rfl
    | succ g2 => simp [reSubF, findOD]
  | succ f2 ih =>
    intro g s st hf hg
    cases g with
    | zero =>
      have hs : s = [] := List.length_eq_zero.mp (by omega)
      subst hs
      simp [reSubF, findOD]
    | succ g2 =>
      cases hocc : findOD s st with
      | none => simp [reSubF, hocc]
      | some p =>
        cases p with
        | mk i n =>
          simp only [reSubF, hocc]
          obtain ⟨hn, hi⟩ := findOD_pos hocc
          have hlen : (s.drop (i + n)).length ≤ f2 ∧ (s.drop (i + n)).length ≤ g2 := by
            simp only [List.length_drop]
            omega
          rw [ih g2 (s.drop (i + n)) false hlen.1 hlen.2]

theorem reSubW_none {repl s : Str} {st : Bool} (h : findOD s st = none) :
    reSubW repl s st = s := by
  cases s with
  | nil => rfl
  | cons c rest =>
    show reSubF repl (c :: rest).length (c :: rest) st = _
    simp only [List.length_cons, reSubF, h]

theorem reSubW_found {repl s : Str} {st : Bool} {i n : Nat} (h : findOD s st = some (i, n)) :
    reSubW repl s st = s.take i ++ repl ++ reSubW repl (s.drop (i + n)) false := by
  cases s with
  | nil => simp [findOD] at h
  | cons c rest =>
    show reSubF repl (c :: rest).length (c :: rest) st = _
    have hstep : reSubF repl (c :: rest).length (c :: rest) st =
        (c :: rest).take i ++ repl ++ reSubF repl rest.length ((c :: rest).drop (i + n)) false := by
      simp only [List.length_cons, reSubF, h]
    rw [hstep]
    have hrec : reSubF repl rest.length ((c :: rest).drop (i + n)) false =
        reSubW repl ((c :: rest).drop (i + n)) false := by
      show _ = reSubF repl ((c :: rest).drop (i + n)).length _ false
      apply reSubF_congr
      · obtain ⟨hn, hi⟩ := findOD_pos h
        simp only [List.length_drop, List.length_cons]
        omega
      · exact le_rfl
    rw [hrec]

theorem reSubW_of_shift {repl : Str} {c : Char} {s : Str} {st : Bool}
    (hfo : findOD (c :: s) st = (findOD s (c == '\n')).map (fun p => (p.1 + 1, p.2))) :
    reSubW repl (c :: s) st = c :: reSubW repl s (c == '\n') := by
  cases hf : findOD s (c == '\n') with
  | none =>
    rw [reSubW_none (by rw [hfo, hf]; rfl), reSubW_none hf]
  | some p =>
    cases p with
    | mk i n =>
      have h2 : findOD (c :: s) st = some (i + 1, n) := by rw [hfo, hf]; rfl
      rw [reSubW_found h2, reSubW_found hf]
      have hdrop : (c :: s).drop (i + 1 + n) = s.drop (i + n) := by
        rw [show i + 1 + n = (i + n) + 1 by omega]
        rfl
      rw [hdrop]
      rfl

theorem findOD_cons (c : Char) (s : Str) (st : Bool) :
    findOD (c :: s) st =
      match (if st then matchOD (c :: s) else none) with
      | some n => some (0, n)
      | none => (findOD s (c == '\n')).map (fun p => (p.1 + 1, p.2)) := rfl

theorem reSubW_cons_false (repl : Str) (c : Char) (s : Str) :
    reSubW repl (c :: s) false = c :: reSubW repl s (c == '\n') := by
  apply reSubW_of_shift
  rfl

theorem reSubW_cons_true {repl : Str} {c : Char} {s : Str} (h : matchOD (c :: s) = none) :
    reSubW repl (c :: s) true = c :: reSubW repl s (c == '\n') := by
  apply reSubW_of_shift
  rw [findOD_cons, h]
  rfl

theorem reSubW_match {repl s : Str} {n : Nat} (h : matchOD s = some n) :
    reSubW repl s true = repl ++ reSubW repl (s.drop n) false := by
  cases s with
  | nil =>
    rw [matchOD_nil] at h
    exact absurd h (by simp)
  | cons c rest =>
    have h2 : findOD (c :: rest) true = some (0, n) := by
      rw [findOD_cons, h]
      rfl
    rw [reSubW_found h2]
    simp

theorem reSubW_copy (repl l s : Str) (hl : '\n' ∉ l) :
    reSubW repl (l ++ s) false = l ++ reSubW repl s false := by
  induction l with
  | nil => rfl
  | cons c cs ih =>
    have hc : (c == '\n') = false := by
      simp only [beq_eq_false_iff_ne, ne_eq]
      intro hcc
      exact hl (by simp [hcc])
    rw [List.cons_append, reSubW_cons_false, hc,
      ih (fun hm => hl (List.mem_cons_of_mem _ hm))]
    rfl

/-! ## takeWhile/dropWhile and line-splitting toolkit -/

theorem takeWhile_append_dropWhile_my (p : Char → Bool) (l : Str) :
    l.takeWhile p ++ l.dropWhile p = l := List.takeWhile_append_dropWhile p l

theorem takeWhile_mem_pred {p : Char → Bool} {l : Str} {c : Char}
    (h : c ∈ l.takeWhile p) : p c = true := by
  induction l with
  | nil => simp at h
  | cons a cs ih =>
    rw [List.takeWhile_cons] at h
    cases ha : p a
    · rw [ha] at h
      simp at h
    · rw [ha, if_pos rfl] at h
      rcases List.mem_cons.mp h with rfl | h2
      · exact ha
      · exact ih h2

theorem dropWhile_head_neg {p : Char → Bool} {l : Str} {c : Char} {r : Str}
    (h : l.dropWhile p = c :: r) : p c = false := by
  induction l with
  | nil => simp at h
  | cons a cs ih =>
    rw [List.dropWhile_cons] at h
    cases ha : p a
    · rw [ha, if_neg (by simp)] at h
      injection h with h1 h2
      subst h1
      exact ha
    · rw [ha, if_pos rfl] at h
      exact ih h

theorem dropWhile_append_of_ne_nil {p : Char → Bool} {a : Str} (b : Str)
    (h : a.dropWhile p ≠ []) :
    (a ++ b).takeWhile p = a.takeWhile p ∧ (a ++ b).dropWhile p = a.dropWhile p ++ b := by
  induction a with
  | nil => exact absurd rfl h
  | cons c cs ih =>
    rw [List.cons_append, List.takeWhile_cons, List.takeWhile_cons,
      List.dropWhile_cons, List.dropWhile_cons]
    cases hc : p c
    · rw [if_neg (by simp), if_neg (by simp)]
      exact ⟨rfl, rfl⟩
    · rw [if_pos rfl, if_pos rfl]
      have h2 : cs.dropWhile p ≠ [] := by
        intro hnil
        rw [List.dropWhile_cons, hc, if_pos rfl, hnil] at h
        exact h rfl
      obtain ⟨ih1, ih2⟩ := ih h2
      rw [ih1, ih2]
      exact ⟨rfl, rfl⟩

theorem takeWhile_append_all {p : Char → Bool} {a : Str} (ha : ∀ c ∈ a, p c = true)
    {b0 : Char} (hb : p b0 = false) (r : Str) :
    (a ++ b0 :: r).takeWhile p = a ∧ (a ++ b0 :: r).dropWhile p = b0 :: r := by
  induction a with
  | nil =>
    rw [List.nil_append, List.takeWhile_cons, List.dropWhile_cons, hb]
    simp
  | cons c cs ih =>
    have hc : p c = true := ha c (by simp)
    obtain ⟨ih1, ih2⟩ := ih (fun x hx => ha x (by simp [hx]))
    rw [List.cons_append, List.takeWhile_cons, List.dropWhile_cons, hc,
      if_pos rfl, if_pos rfl, ih1, ih2]
    exact ⟨rfl, rfl⟩

theorem takeWhile_all {p : Char → Bool} {a : Str} (ha : ∀ c ∈ a, p c = true) :
    a.takeWhile p = a := by
  induction a with
  | nil => rfl
  | cons c cs ih =>
    rw [List.takeWhile_cons, ha c (by simp), if_pos rfl,
      ih (fun x hx => ha x (by simp [hx]))]

theorem splitNl_cons (c : Char) (s : Str) :
    splitNl (c :: s) =
      if c = '\n' then [] :: splitNl s
      else
        match splitNl s with
        | [] => [[c]]
        | l :: ls => (c :: l) :: ls := rfl

theorem splitNl_cons_ne {c : Char} (hc : ¬ c = '\n') (s : Str) :
    splitNl (c :: s) =
      match splitNl s with
      | [] => [[c]]
      | l :: ls => (c :: l) :: ls := by
  rw [splitNl_cons, if_neg hc]

theorem splitNl_cons_nl (s : Str) : splitNl ('\n' :: s) = [] :: splitNl s := rfl

theorem splitNl_ne_nil (s : Str) : splitNl s ≠ [] := by
  cases s with
  | nil => simp [splitNl]
  | cons c rest =>
    by_cases hc : c = '\n'
    · subst hc
      rw [splitNl_cons_nl]
      simp
    · rw [splitNl_cons_ne hc]
      cases splitNl rest <;> simp

theorem splitNl_single {s : Str} (h : '\n' ∉ s) : splitNl s = [s] := by
  induction s with
  | nil => rfl
  | cons c rest ih =>
    have hc : ¬ c = '\n' := fun hcc => h (by simp [hcc])
    have ih2 := ih (fun hm => h (List.mem_cons_of_mem _ hm))
    rw [splitNl_cons_ne hc, ih2]

theorem splitNl_append {l : Str} (h : '\n' ∉ l) (rest : Str) :
    splitNl (l ++ '\n' :: rest) = l :: splitNl rest := by
  induction l with
  | nil =>
    rw [List.nil_append, splitNl_cons_nl]
  | cons c cs ih =>
    have hc : ¬ c = '\n' := fun hcc => h (by simp [hcc])
    have ih2 := ih (fun hm => h (List.mem_cons_of_mem _ hm))
    rw [List.cons_append, splitNl_cons_ne hc, ih2]

theorem joinNl_splitNl (s : Str) : joinNl (splitNl s) = s := by
  induction s with
  | nil => rfl
  | cons c rest ih =>
    by_cases hc : c = '\n'
    · subst hc
      rw [splitNl_cons_nl]
      cases hs : splitNl rest with
      | nil => exact absurd hs (splitNl_ne_nil rest)
      | cons l ls =>
        rw [hs] at ih
        show [] ++ '\n' :: joinNl (l :: ls) = '\n' :: rest
        rw [List.nil_append, ih]
    · rw [splitNl_cons_ne hc]
      cases hs : splitNl rest with
      | nil => exact absurd hs (splitNl_ne_nil rest)
      | cons l ls =>
        rw [hs] at ih
        cases ls with
        | nil =>
          show c :: l = c :: rest
          rw [show (joinNl [l] : Str) = l from rfl] at ih
          rw [ih]
        | cons l2 ls2 =>
          show (c :: l) ++ '\n' :: joinNl (l2 :: ls2) = c :: rest
          rw [List.cons_append]
          rw [show l ++ '\n' :: joinNl (l2 :: ls2) = joinNl (l :: l2 :: ls2) from rfl, ih]

/-! ## How the multiline regex behaves on a single line -/

theorem notNl_true_iff (c : Char) : notNl c = true ↔ ¬ c = '\n' := by
  simp [notNl]

theorem matchOD_line_match {l : Str} (hm : lineMatchesOD l = true) (hnl : '\n' ∉ l)
    {t : Str} (ht : t = [] ∨ ∃ r, t = '\n' :: r) :
    matchOD (l ++ t) = some l.length := by
  unfold lineMatchesOD at hm
  rw [Bool.and_eq_true] at hm
  obtain ⟨hpre, hmatch⟩ := hm
  obtain ⟨m, hlm⟩ := (preB_iff _ _).mp hpre
  have hm_drop : l.drop odLit.length = m := by
    rw [← hlm]
    exact drop_append_self odLit m
  cases hdw0 : (l.drop odLit.length).dropWhile pyIsSpace with
  | nil => rw [hdw0] at hmatch; simp at hmatch
  | cons c m2 =>
    have hc : c = '=' := by
      rw [hdw0] at hmatch
      split at hmatch
      next heq => injection heq
      next => exact absurd hmatch (by simp)
    subst hc
    have hdw : m.dropWhile pyIsSpace = '=' :: m2 := by rw [← hm_drop, hdw0]
    have hmdec : m.takeWhile pyIsSpace ++ '=' :: m2 = m := by
      rw [← hdw]
      exact takeWhile_append_dropWhile_my pyIsSpace m
    -- membership of m2 in l
    have hm2l : ∀ x ∈ m2, x ∈ l := by
      intro x hx
      rw [← hlm, ← hmdec]
      simp [hx]
    have hm2nl : ∀ x ∈ m2, notNl x = true := by
      intro x hx
      rw [notNl_true_iff]
      intro hxx
      subst hxx
      exact hnl (hm2l _ hx)
    -- the text after the literal
    have hdrop_lt : (l ++ t).drop odLit.length = m ++ t := by
      rw [← hlm, List.append_assoc]
      exact drop_append_self odLit (m ++ t)
    have hpre2 : preB odLit (l ++ t) = true := by
      rw [preB_iff]
      exact ⟨m ++ t, by rw [← List.append_assoc, hlm]⟩
    obtain ⟨htw2, hdw2⟩ :=
      dropWhile_append_of_ne_nil (p := pyIsSpace) (a := m) t (by rw [hdw]; simp)
    rw [hdw] at hdw2
    have htcase : (m2 ++ t).takeWhile notNl = m2 := by
      rcases ht with rfl | ⟨r, rfl⟩
      · rw [List.append_nil]
        exact takeWhile_all hm2nl
      · exact (takeWhile_append_all hm2nl (show notNl '\n' = false from rfl) r).1
    unfold matchOD
    rw [if_pos hpre2, hdrop_lt, hdw2, List.cons_append]
    show some (odLit.length + ((m ++ t).takeWhile pyIsSpace).length + 1
        + ((m2 ++ t).takeWhile notNl).length) = some l.length
    have hlen : l.length = odLit.length + (m.takeWhile pyIsSpace).length + 1 + m2.length := by
      have e1 := congrArg List.length hlm
      have e2 := congrArg List.length hmdec
      simp only [List.length_append, List.length_cons] at e1 e2
      omega
    rw [htcase, htw2, hlen]

theorem matchOD_line_none {l : Str} (hm : lineMatchesOD l = false)
    (hws : isODwsOnly l = false) (hnl : '\n' ∉ l)
    {t : Str} (ht : t = [] ∨ ∃ r, t = '\n' :: r) :
    matchOD (l ++ t) = none := by
  cases hpre : preB odLit l with
  | false =>
    -- OUTPUT_DIRECTORY is not a prefix of the line; adding the line break
    -- cannot create one since odLit has no newline
    have hnp : preB odLit (l ++ t) = false := by
      cases hpb : preB odLit (l ++ t) with
      | false => rfl
      | true =>
        exfalso
        obtain ⟨u, hu⟩ := (preB_iff _ _).mp hpb
        by_cases hlen : odLit.length ≤ l.length
        · -- the prefix lies inside l
          have : PreOf odLit l := by
            refine ⟨l.drop odLit.length, ?_⟩
            have h1 : l.take odLit.length = odLit := by
              have h2 : (l ++ t).take odLit.length = odLit := PreOf_take ⟨u, hu⟩
              rw [List.take_append_of_le_length hlen] at h2
              exact h2
            conv_rhs => rw [← l.take_append_drop odLit.length]
            rw [h1]
          exact (preB_false_iff _ _).mp hpre this
        · -- the prefix would need to cross into t, whose first char is '\n'
          rcases ht with rfl | ⟨r, rfl⟩
          · have := PreOf_length_le ⟨u, hu⟩
            simp at this
            omega
          · have hmem : '\n' ∈ odLit := by
              have h2 : (l ++ '\n' :: r).take odLit.length = odLit := PreOf_take ⟨u, hu⟩
              rw [List.take_append_eq_append_take] at h2
              have h3 : l.take odLit.length = l := List.take_of_length_le (by omega)
              rw [h3] at h2
              rw [← h2]
              refine List.mem_append_right _ ?_
              cases hν : (odLit.length - l.length) with
              | zero => omega
              | succ k => simp [hν]
            revert hmem
            decide
    unfold matchOD
    rw [hnp]
    simp
  | true =>
    obtain ⟨m, hlm⟩ := (preB_iff _ _).mp hpre
    have hm_drop : l.drop odLit.length = m := by
      rw [← hlm]
      exact drop_append_self odLit m
    have hdrop_lt : (l ++ t).drop odLit.length = m ++ t := by
      rw [← hlm, List.append_assoc]
      exact drop_append_self odLit (m ++ t)
    have hpre2 : preB odLit (l ++ t) = true := by
      rw [preB_iff]
      exact ⟨m ++ t, by rw [← List.append_assoc, hlm]⟩
    cases hdw0 : m.dropWhile pyIsSpace with
    | nil =>
      -- the line is OUTPUT_DIRECTORY plus whitespace only: excluded
      exfalso
      have : isODwsOnly l = true := by
        unfold isODwsOnly
        rw [Bool.and_eq_true, hm_drop, hdw0]
        exact ⟨hpre, rfl⟩
      rw [hws] at this
      exact absurd this (by simp)
    | cons c m2 =>
      have hcne : ¬ c = '=' := by
        intro hcc
        subst hcc
        have : lineMatchesOD l = true := by
          unfold lineMatchesOD
          rw [Bool.and_eq_true, hm_drop, hdw0]
          exact ⟨hpre, rfl⟩
        rw [hm] at this
        exact absurd this (by simp)
      obtain ⟨htw2, hdw2⟩ :=
        dropWhile_append_of_ne_nil (p := pyIsSpace) (a := m) t (by rw [hdw0]; simp)
      rw [hdw0] at hdw2
      unfold matchOD
      rw [if_pos hpre2, hdrop_lt, hdw2, List.cons_append]
      split
      · rename_i heq
        injection heq with h1 h2
        exact absurd h1 hcne
      · rfl

theorem reSubW_nil (repl : Str) (st : Bool) : reSubW repl [] st = [] := rfl

theorem reSubW_copy_end (repl l : Str) (hl : '\n' ∉ l) : reSubW repl l false = l := by
  have h := reSubW_copy repl l [] hl
  rw [List.append_nil] at h
  rw [h, reSubW_nil, List.append_nil]

theorem joinNl_cons_ne (a : Str) (ls : List Str) (h : ls ≠ []) :
    joinNl (a :: ls) = a ++ '\n' :: joinNl ls := by
  cases ls with
  | nil => exact absurd rfl h
  | cons b ls2 => rfl

theorem reSub_line_last (repl : Str) : ∀ l0 : Str, '\n' ∉ l0 → isODwsOnly l0 = false →
    reSubW repl l0 true = (if lineMatchesOD l0 = true then repl else l0) := by
  intro l0 hnl hws0
  by_cases hm : lineMatchesOD l0 = true
  · rw [if_pos hm]
    have hmOD : matchOD l0 = some l0.length := by
      have h := matchOD_line_match hm hnl (t := []) (Or.inl rfl)
      rwa [List.append_nil] at h
    rw [reSubW_match hmOD, List.drop_length]
    rw [show reSubW repl ([] : Str) false = [] from rfl, List.append_nil]
  · have hmf : lineMatchesOD l0 = false := by
      cases hx : lineMatchesOD l0
      · rfl
      · exact absurd hx hm
    rw [if_neg hm]
    cases l0 with
    | nil => rfl
    | cons c l0' =>
      have hmOD : matchOD (c :: l0') = none := by
        have h := matchOD_line_none hmf hws0 hnl (t := []) (Or.inl rfl)
        rwa [List.append_nil] at h
      rw [reSubW_cons_true hmOD]
      have hcnl : (c == '\n') = false := by
        simp only [beq_eq_false_iff_ne, ne_eq]
        intro hcc
        exact hnl (by simp [hcc])
      rw [hcnl, reSubW_copy_end repl l0' (fun hmem => hnl (List.mem_cons_of_mem _ hmem))]

theorem reSub_line_cons (repl : Str) (l0 : Str) (hnl : '\n' ∉ l0)
    (hws0 : isODwsOnly l0 = false) (rest : Str) :
    reSubW repl (l0 ++ '\n' :: rest) true =
      (if lineMatchesOD l0 = true then repl else l0) ++ '\n' :: reSubW repl rest true := by
  by_cases hm : lineMatchesOD l0 = true
  · rw [if_pos hm]
    have hmOD : matchOD (l0 ++ '\n' :: rest) = some l0.length :=
      matchOD_line_match hm hnl (Or.inr ⟨rest, rfl⟩)
    rw [reSubW_match hmOD, drop_append_self l0 ('\n' :: rest), reSubW_cons_false]
    rw [show (('\n' : Char) == '\n') = true from rfl]
  · have hmf : lineMatchesOD l0 = false := by
      cases hx : lineMatchesOD l0
      · rfl
      · exact absurd hx hm
    rw [if_neg hm]
    have hmOD : matchOD (l0 ++ '\n' :: rest) = none :=
      matchOD_line_none hmf hws0 hnl (Or.inr ⟨rest, rfl⟩)
    cases l0 with
    | nil =>
      rw [List.nil_append] at hmOD ⊢
      rw [reSubW_cons_true hmOD]
      rw [show (('\n' : Char) == '\n') = true from rfl]
      rfl
    | cons c l0' =>
      rw [List.cons_append] at hmOD
      rw [List.cons_append, reSubW_cons_true hmOD]
      have hcnl : (c == '\n') = false := by
        simp only [beq_eq_false_iff_ne, ne_eq]
        intro hcc
        exact hnl (by simp [hcc])
      rw [hcnl,
        reSubW_copy repl l0' ('\n' :: rest) (fun hmem => hnl (List.mem_cons_of_mem _ hmem)),
        reSubW_cons_false,
        show (('\n' : Char) == '\n') = true from rfl]
      rfl

theorem reSub_per_line (repl text : Str)
    (hws : ∀ l ∈ splitNl text, isODwsOnly l = false) :
    reSubW repl text true =
      joinNl ((splitNl text).map (fun l => if lineMatchesOD l = true then repl else l)) := by
  have hnl0 : '\n' ∉ text.takeWhile notNl := fun hmem => by
    have h2 := takeWhile_mem_pred hmem
    rw [notNl_true_iff] at h2
    exact h2 rfl
  cases hrest : text.dropWhile notNl with
  | nil =>
    have htext : text = text.takeWhile notNl := by
      conv_lhs => rw [← takeWhile_append_dropWhile_my notNl text]
      rw [hrest, List.append_nil]
    have hsplit : splitNl text = [text.takeWhile notNl] := by
      conv_lhs => rw [htext]
      exact splitNl_single hnl0
    have hws0 : isODwsOnly (text.takeWhile notNl) = false :=
      hws _ (by rw [hsplit]; exact List.mem_singleton.mpr rfl)
    rw [hsplit]
    conv_lhs => rw [htext]
    rw [reSub_line_last repl _ hnl0 hws0]
    rfl
  | cons c0 rest0 =>
    have hc0 : c0 = '\n' := by
      have h2 := dropWhile_head_neg hrest
      simp only [notNl, Bool.not_eq_false', beq_iff_eq] at h2
      exact h2
    subst hc0
    have htext : text = text.takeWhile notNl ++ '\n' :: rest0 := by
      conv_lhs => rw [← takeWhile_append_dropWhile_my notNl text]
      rw [hrest]
    have hsplit : splitNl text = text.takeWhile notNl :: splitNl rest0 := by
      conv_lhs => rw [htext]
      exact splitNl_append hnl0 rest0
    have hws0 : isODwsOnly (text.takeWhile notNl) = false :=
      hws _ (by rw [hsplit]; exact List.mem_cons_self _ _)
    have hws2 : ∀ l ∈ splitNl rest0, isODwsOnly l = false := fun l hl =>
      hws l (by rw [hsplit]; exact List.mem_cons_of_mem _ hl)
    have ih := reSub_per_line repl rest0 hws2
    rw [hsplit]
    conv_lhs => rw [htext]
    rw [reSub_line_cons repl _ hnl0 hws0 rest0, ih, List.map_cons,
      joinNl_cons_ne _ _ (fun hmap => splitNl_ne_nil rest0 (List.map_eq_nil_iff.mp hmap))]
  termination_by text.length
  decreasing_by
    have hlen := congrArg List.length htext
    simp only [List.length_append, List.length_cons] at hlen
    omega

theorem map_id_of {α : Type} (f : α → α) (l : List α) (h : ∀ x ∈ l, f x = x) :
    l.map f = l := by
  induction l with
  | nil => rfl
  | cons a as ih =>
    rw [List.map_cons, h a (by simp), ih (fun x hx => h x (List.mem_cons_of_mem _ hx))]

/-- C2 counterexample: the rewrite is not line-by-line.  On the template
`"OUTPUT_DIRECTORY\n=x\nKEEP = y"` no single line matches
`^OUTPUT_DIRECTORY\s*=.*$` (the first line has no `=`, the second does not
start with the literal), so under the claim the text should be returned
unchanged — but `\s*` matches the newline, the match spans the first two
lines, and the code collapses them into the replacement line. -/
theorem c2_output_rewrite_counterexample :
    ¬ (reSubOD (replLine (str "/r")) (str "OUTPUT_DIRECTORY\n=x\nKEEP = y") =
        joinNl ((splitNl (str "OUTPUT_DIRECTORY\n=x\nKEEP = y")).map
          (fun l => if lineMatchesOD l = true then replLine (str "/r") else l))) := by
  decide

/-- C2 (amended): provided no line of the text consists of
`OUTPUT_DIRECTORY` followed by whitespace only (which is what lets `\s*`
cross a line break), the `re.sub` rewrites exactly the lines matching
`^OUTPUT_DIRECTORY\s*=.*$`, replacing each whole such line by
`OUTPUT_DIRECTORY       = <root>/build/docs/doxygen`, and alters no other
line.  The backslash hypothesis records that the model inserts the
replacement literally, which matches CPython exactly when the root path
contains no backslash. -/
theorem c2_output_rewrite (root text : Str)
    (hbs : '\\' ∉ root)
    (hws : ∀ l ∈ splitNl text, isODwsOnly l = false) :
    reSubOD (replLine root) text =
      joinNl ((splitNl text).map
        (fun l => if lineMatchesOD l = true then replLine root else l)) :=
  reSub_per_line (replLine root) text hws

theorem c2_output_rewrite_witness :
    (('\\' : Char) ∉ str "/r") ∧
    (∀ l ∈ splitNl (str "A = 1\nOUTPUT_DIRECTORY   = old\nB = 2"), isODwsOnly l = false) ∧
    reSubOD (replLine (str "/r")) (str "A = 1\nOUTPUT_DIRECTORY   = old\nB = 2") =
      joinNl ((splitNl (str "A = 1\nOUTPUT_DIRECTORY   = old\nB = 2")).map
        (fun l => if lineMatchesOD l = true then replLine (str "/r") else l)) :=
  ⟨by decide, by decide,
   c2_output_rewrite (str "/r") (str "A = 1\nOUTPUT_DIRECTORY   = old\nB = 2")
     (by decide) (by decide)⟩

/-- C8 counterexample: a template with no line matching
`^OUTPUT_DIRECTORY\s*=` (and no placeholder) is nevertheless altered by the
substitution step, because the match crosses the line break through `\s*`. -/
theorem c8_no_od_counterexample :
    (∀ l ∈ splitNl (str "OUTPUT_DIRECTORY\n= x"), lineMatchesOD l = false) ∧
    ¬ (prepareText (str "/r") (str "OUTPUT_DIRECTORY\n= x") =
        applyReplacements (str "/r") (str "OUTPUT_DIRECTORY\n= x")) := by
  constructor
  · decide
  · decide

/-- C8 (amended): if, after the placeholder replacements, no line matches
`^OUTPUT_DIRECTORY\s*=` and no line is `OUTPUT_DIRECTORY` followed by
whitespace only, then the substitution leaves the text unchanged: the
prepared text is exactly the placeholder-substituted template (no
output-directory directive is introduced), and no error arises —
`prepareText` is total. -/
theorem c8_no_od_line_unchanged (root text : Str)
    (hbs : '\\' ∉ root)
    (hnm : ∀ l ∈ splitNl (applyReplacements root text), lineMatchesOD l = false)
    (hws : ∀ l ∈ splitNl (applyReplacements root text), isODwsOnly l = false) :
    prepareText root text = applyReplacements root text := by
  unfold prepareText
  rw [show reSubOD (replLine root) (applyReplacements root text)
      = reSubW (replLine root) (applyReplacements root text) true from rfl]
  rw [reSub_per_line (replLine root) (applyReplacements root text) hws]
  rw [map_id_of _ _ (fun l hl => by rw [hnm l hl]; simp), joinNl_splitNl]

theorem c8_no_od_line_unchanged_witness :
    (('\\' : Char) ∉ str "/r") ∧
    (∀ l ∈ splitNl (applyReplacements (str "/r") (str "NAME = @PROJECT_NAME@\nIN = x")),
      lineMatchesOD l = false) ∧
    (∀ l ∈ splitNl (applyReplacements (str "/r") (str "NAME = @PROJECT_NAME@\nIN = x")),
      isODwsOnly l = false) ∧
    prepareText (str "/r") (str "NAME = @PROJECT_NAME@\nIN = x") =
      applyReplacements (str "/r") (str "NAME = @PROJECT_NAME@\nIN = x") :=
  ⟨by decide, by decide, by decide,
   c8_no_od_line_unchanged (str "/r") (str "NAME = @PROJECT_NAME@\nIN = x")
     (by decide) (by decide) (by decide)⟩

/-! ## Occurrence analysis for the token-removal argument -/

theorem PreOf_trans {a b c : Str} (h1 : PreOf a b) (h2 : PreOf b c) : PreOf a c := by
  obtain ⟨t1, rfl⟩ := h1
  obtain ⟨t2, rfl⟩ := h2
  exact ⟨t1 ++ t2, by rw [List.append_assoc]⟩

theorem mem_of_PreOf {u v : Str} (h : PreOf u v) {x : Char} (hx : x ∈ u) : x ∈ v := by
  obtain ⟨t, rfl⟩ := h
  exact List.mem_append_left t hx

theorem mem_of_InfOf {p l : Str} (h : InfOf p l) {x : Char} (hx : x ∈ p) : x ∈ l := by
  obtain ⟨a, b, rfl⟩ := h
  exact List.mem_append_left b (List.mem_append_right a hx)

theorem InfOf_length_le {p l : Str} (h : InfOf p l) : p.length ≤ l.length := by
  obtain ⟨a, b, rfl⟩ := h
  simp only [List.length_append]
  omega

theorem InfOf_of_take {p l : Str} {n : Nat} (h : InfOf p (l.take n)) : InfOf p l := by
  obtain ⟨a, b, hab⟩ := h
  refine ⟨a, b ++ l.drop n, ?_⟩
  conv_rhs => rw [← l.take_append_drop n]
  rw [← hab]
  simp [List.append_assoc]

theorem InfOf_of_drop {p l : Str} {n : Nat} (h : InfOf p (l.drop n)) : InfOf p l := by
  obtain ⟨a, b, hab⟩ := h
  refine ⟨l.take n ++ a, b, ?_⟩
  conv_rhs => rw [← l.take_append_drop n]
  rw [← hab]
  simp [List.append_assoc]

theorem getLastQ_mem : ∀ {l : Str} {c : Char}, l.getLast? = some c → c ∈ l := by
  intro l
  induction l with
  | nil => intro c h; simp at h
  | cons a t ih =>
    intro c h
    cases t with
    | nil =>
      simp at h
      simp [h]
    | cons b t2 =>
      rw [List.getLast?_cons_cons] at h
      exact List.mem_cons_of_mem a (ih h)

theorem getLastQ_drop {l : Str} {n : Nat} (h : l.drop n ≠ []) :
    (l.drop n).getLast? = l.getLast? := by
  conv_rhs => rw [← l.take_append_drop n]
  rw [List.getLast?_append_of_ne_nil _ h]

theorem PreOf_append_split {x a b : Str} (h : PreOf x (a ++ b)) :
    (x.length ≤ a.length ∧ PreOf x a) ∨
    (a.length ≤ x.length ∧ PreOf a x ∧ PreOf (x.drop a.length) b) := by
  obtain ⟨t, ht⟩ := h
  by_cases hl : x.length ≤ a.length
  · left
    refine ⟨hl, ?_⟩
    have hx : x = a.take x.length := by
      have h1 : (a ++ b).take x.length = a.take x.length :=
        List.take_append_of_le_length hl
      rw [← ht, take_append_self] at h1
      exact h1
    exact hx ▸ PreOf_of_take a x.length
  · right
    have hl2 : a.length ≤ x.length := by omega
    have hxa : x.take a.length = a := by
      have h1 : (x ++ t).take a.length = x.take a.length :=
        List.take_append_of_le_length hl2
      rw [ht, take_append_self] at h1
      exact h1.symm
    have hax : a ++ x.drop a.length = x := by
      have h3 := x.take_append_drop a.length
      rwa [hxa] at h3
    refine ⟨hl2, ⟨x.drop a.length, hax⟩, ?_⟩
    refine ⟨t, ?_⟩
    have h2 : (x ++ t).drop a.length = x.drop a.length ++ t :=
      List.drop_append_of_le_length hl2
    rw [ht, drop_append_self] at h2
    exact h2.symm

theorem tok_infix_mid_split {tok v A B : Str}
    (htokne : tok ≠ []) (hhead : tok.head? = some '@') (hlast : tok.getLast? = some '@')
    (hat : '@' ∉ v) (hvtok : ¬ InfOf v tok)
    (h : InfOf tok (A ++ v ++ B)) : InfOf tok A ∨ InfOf tok B := by
  rw [InfOf_iff_drop] at h
  obtain ⟨i, hp⟩ := h
  by_cases hiA : i ≤ A.length
  · have hdrop : (A ++ v ++ B).drop i = A.drop i ++ (v ++ B) := by
      rw [List.append_assoc]
      exact List.drop_append_of_le_length hiA
    rw [hdrop] at hp
    rcases PreOf_append_split hp with ⟨hlen, hpre⟩ | ⟨hlen, hpre, hrest⟩
    · exact Or.inl ((InfOf_iff_drop tok A).mpr ⟨i, hpre⟩)
    · rcases PreOf_append_split hrest with ⟨hlen2, hpre2⟩ | ⟨hlen2, hpre2, hrest2⟩
      · by_cases h0 : tok.length ≤ A.length - i
        · -- tok is exactly the prefix A.drop i
          obtain ⟨t, ht⟩ := hpre
          have htn : t = [] := by
            have hlt := congrArg List.length ht
            simp only [List.length_append, List.length_drop] at hlt
            exact List.length_eq_zero.mp (by omega)
          subst htn
          rw [List.append_nil] at ht
          exact Or.inl ((InfOf_iff_drop tok A).mpr ⟨i, ht ▸ ⟨[], List.append_nil _⟩⟩)
        · exfalso
          have htok2ne : tok.drop (A.drop i).length ≠ [] := by
            intro hx
            have hlt := congrArg List.length hx
            simp only [List.length_drop] at hlt
            simp only [List.length_nil] at hlt
            omega
          have hlast2 : (tok.drop (A.drop i).length).getLast? = some '@' := by
            rw [getLastQ_drop htok2ne, hlast]
          exact hat (mem_of_PreOf hpre2 (getLastQ_mem hlast2))
      · exact absurd ((InfOf_iff_drop v tok).mpr ⟨(A.drop i).length, hpre2⟩) hvtok
  · have hdrop : (A ++ v ++ B).drop i = (v ++ B).drop (i - A.length) := by
      rw [List.append_assoc]
      have h4 : (A ++ (v ++ B)).drop (A.length + (i - A.length)) =
          (v ++ B).drop (i - A.length) := List.drop_append _
      rw [show A.length + (i - A.length) = i by omega] at h4
      exact h4
    rw [hdrop] at hp
    by_cases hiv : i - A.length < v.length
    · exfalso
      have hdrop2 : (v ++ B).drop (i - A.length) = v.drop (i - A.length) ++ B :=
        List.drop_append_of_le_length (by omega)
      rw [hdrop2] at hp
      obtain ⟨t, ht⟩ := hp
      cases htok : tok with
      | nil => exact htokne htok
      | cons c tokr =>
        rw [htok] at hhead ht
        have hc : c = '@' := by
          simp at hhead
          exact hhead
        cases hvd : v.drop (i - A.length) with
        | nil =>
          have := congrArg List.length hvd
          simp at this
          omega
        | cons d vr =>
          rw [hvd] at ht
          rw [List.cons_append, List.cons_append] at ht
          injection ht with h1 h2
          have hd : d = '@' := h1.symm.trans hc
          have hdv : d ∈ v :=
            List.drop_subset _ v (by rw [hvd]; exact List.mem_cons_self _ _)
          rw [hd] at hdv
          exact hat hdv
    · right
      rw [InfOf_iff_drop]
      refine ⟨i - A.length - v.length, ?_⟩
      have h3 : (v ++ B).drop (i - A.length) = B.drop (i - A.length - v.length) := by
        have h4 : (v ++ B).drop (v.length + (i - A.length - v.length)) =
            B.drop (i - A.length - v.length) := List.drop_append _
        rw [show v.length + (i - A.length - v.length) = i - A.length by omega] at h4
        exact h4
      rw [h3] at hp
      exact hp

/-- Replacing every occurrence of a token that starts and ends with `'@'`
by a value that contains no `'@'` (and is not a substring of the token)
leaves no occurrence of that token. -/
theorem pyReplace_no_self {tok val : Str}
    (htokne : tok ≠ []) (hhead : tok.head? = some '@') (hlast : tok.getLast? = some '@')
    (hat : '@' ∉ val) (hvtok : ¬ InfOf val tok) (s : Str) :
    ¬ InfOf tok (pyReplace s tok val) := by
  cases hocc : findOcc tok s with
  | none =>
    rw [pyReplace_none htokne hocc]
    exact findOcc_none hocc
  | some i =>
    rw [pyReplace_found htokne hocc]
    intro hinf
    obtain ⟨hf1, hf2⟩ := findOcc_some hocc
    rcases tok_infix_mid_split htokne hhead hlast hat hvtok hinf with hA | hB
    · rw [InfOf_iff_drop] at hA
      obtain ⟨j, hp⟩ := hA
      have h1 : (s.take i).drop j = (s.drop j).take (i - j) := by
        rw [List.drop_take]
      rw [h1] at hp
      have h2 : PreOf tok (s.drop j) := PreOf_trans hp (PreOf_of_take (s.drop j) (i - j))
      have hjlt : j < i := by
        have h3 := PreOf_length_le hp
        have htl : 1 ≤ tok.length := List.length_pos.mpr htokne
        simp only [List.length_take, List.length_drop] at h3
        omega
      exact hf2 j hjlt h2
    · exact pyReplace_no_self htokne hhead hlast hat hvtok (s.drop (i + tok.length)) hB
  termination_by s.length
  decreasing_by
    have htl : 1 ≤ tok.length := List.length_pos.mpr htokne
    have hsp : 1 ≤ s.length := by
      obtain ⟨t, ht⟩ := hf1
      have h5 := congrArg List.length ht
      simp only [List.length_append, List.length_drop] at h5
      omega
    simp only [List.length_drop]
    omega

/-- Replacing other text cannot create an occurrence of a token that starts
and ends with `'@'` when the inserted value has no `'@'` and is not a
substring of the token. -/
theorem pyReplace_no_new {u old val : Str}
    (hune : u ≠ []) (hhead : u.head? = some '@') (hlast : u.getLast? = some '@')
    (hat : '@' ∉ val) (hvu : ¬ InfOf val u) (holdne : old ≠ [])
    (s : Str) (hs : ¬ InfOf u s) : ¬ InfOf u (pyReplace s old val) := by
  cases hocc : findOcc old s with
  | none =>
    rw [pyReplace_none holdne hocc]
    exact hs
  | some i =>
    rw [pyReplace_found holdne hocc]
    intro hinf
    obtain ⟨hf1, hf2⟩ := findOcc_some hocc
    rcases tok_infix_mid_split hune hhead hlast hat hvu hinf with hA | hB
    · exact hs (InfOf_of_take hA)
    · exact pyReplace_no_new hune hhead hlast hat hvu holdne (s.drop (i + old.length))
        (fun hx => hs (InfOf_of_drop hx)) hB
  termination_by s.length
  decreasing_by
    have htl : 1 ≤ old.length := List.length_pos.mpr holdne
    have hsp : 1 ≤ s.length := by
      obtain ⟨t, ht⟩ := hf1
      have h5 := congrArg List.length ht
      simp only [List.length_append, List.length_drop] at h5
      omega
    simp only [List.length_drop]
    omega

/-- The `re.sub` step cannot create an occurrence of such a token either,
when the replacement line has no `'@'` and is not a substring of the token. -/
theorem reSub_no_new {u repl : Str}
    (hune : u ≠ []) (hhead : u.head? = some '@') (hlast : u.getLast? = some '@')
    (hat : '@' ∉ repl) (hvu : ¬ InfOf repl u)
    (s : Str) (st : Bool) (hs : ¬ InfOf u s) : ¬ InfOf u (reSubW repl s st) := by
  cases hocc : findOD s st with
  | none =>
    rw [reSubW_none hocc]
    exact hs
  | some p =>
    cases p with
    | mk i n =>
      rw [reSubW_found hocc]
      intro hinf
      obtain ⟨hn1, hn2⟩ := findOD_pos hocc
      rcases tok_infix_mid_split hune hhead hlast hat hvu hinf with hA | hB
      · exact hs (InfOf_of_take hA)
      · exact reSub_no_new hune hhead hlast hat hvu (s.drop (i + n)) false
          (fun hx => hs (InfOf_of_drop hx)) hB
  termination_by s.length
  decreasing_by
    simp only [List.length_drop]
    omega

/-- C1: `_prepare_doxygen_config` replaces every occurrence of each of the
four enumerated placeholder tokens (literal, non-rescanning `str.replace`
in dict order), and the generated text contains no occurrence of any of
them.  Hypotheses on the root path: it is an absolute POSIX path (starts
with `/`) and contains no `@` — otherwise inserting the root could itself
embed a token, since inserted text is never rescanned — and contains no
backslash (the model inserts the `re.sub` replacement literally, which
matches CPython only then). -/
theorem c1_placeholders_removed (root text : Str)
    (habs : root.head? = some '/') (hat : '@' ∉ root) (hbs : '\\' ∉ root) :
    ∀ tok ∈ placeholderTokens, ¬ InfOf tok (prepareText root text) := by
  have hslash : '/' ∈ root := by
    cases root with
    | nil => simp at habs
    | cons c r =>
      simp at habs
      rw [habs]
      exact List.mem_cons_self _ _
  have hreplat : '@' ∉ replLine root := by
    intro hm
    simp only [replLine, outputDir, List.mem_append] at hm
    rcases hm with hm | hm | hm
    · revert hm; decide
    · exact hat hm
    · revert hm; decide
  have hrepllen : ∀ t : Str, t.length ≤ 40 → ¬ InfOf (replLine root) t := by
    intro t ht hinf
    have hle := InfOf_length_le hinf
    simp only [replLine, outputDir, List.length_append] at hle
    have hlen1 : (str "OUTPUT_DIRECTORY       = ").length = 25 := rfl
    have hlen2 : (str "/build/docs/doxygen").length = 19 := rfl
    rw [hlen1, hlen2] at hle
    omega
  have hroottok : ∀ t : Str, '/' ∉ t → ¬ InfOf root t := by
    intro t hsl hinf
    exact hsl (mem_of_InfOf hinf hslash)
  intro tok htok
  have hprep : prepareText root text =
      reSubW (replLine root) (applyReplacements root text) true := rfl
  have happ : applyReplacements root text =
      pyReplace (pyReplace (pyReplace (pyReplace text (str "@CMAKE_SOURCE_DIR@") root)
          (str "@PROJECT_NAME@") (str "Helipad"))
          (str "@PROJECT_VERSION@") (str "dev"))
          (str "@PROJECT_DESCRIPTION@") (str "Helipad SDL3 engine") := rfl
  simp only [placeholderTokens, List.mem_cons, List.not_mem_nil, or_false] at htok
  rcases htok with rfl | rfl | rfl | rfl
  · rw [hprep, happ]
    apply reSub_no_new (by decide) (by decide) (by decide) hreplat (hrepllen _ (by decide))
    apply pyReplace_no_new (by decide) (by decide) (by decide) (by decide)
      (findOcc_none (by decide)) (by decide)
    apply pyReplace_no_new (by decide) (by decide) (by decide) (by decide)
      (findOcc_none (by decide)) (by decide)
    apply pyReplace_no_new (by decide) (by decide) (by decide) (by decide)
      (findOcc_none (by decide)) (by decide)
    exact pyReplace_no_self (by decide) (by decide) (by decide) hat
      (hroottok _ (by decide)) text
  · rw [hprep, happ]
    apply reSub_no_new (by decide) (by decide) (by decide) hreplat (hrepllen _ (by decide))
    apply pyReplace_no_new (by decide) (by decide) (by decide) (by decide)
      (findOcc_none (by decide)) (by decide)
    apply pyReplace_no_new (by decide) (by decide) (by decide) (by decide)
      (findOcc_none (by decide)) (by decide)
    exact pyReplace_no_self (by decide) (by decide) (by decide) (by decide)
      (findOcc_none (by decide)) _
  · rw [hprep, happ]
    apply reSub_no_new (by decide) (by decide) (by decide) hreplat (hrepllen _ (by decide))
    apply pyReplace_no_new (by decide) (by decide) (by decide) (by decide)
      (findOcc_none (by decide)) (by decide)
    exact pyReplace_no_self (by decide) (by decide) (by decide) (by decide)
      (findOcc_none (by decide)) _
  · rw [hprep, happ]
    apply reSub_no_new (by decide) (by decide) (by decide) hreplat (hrepllen _ (by decide))
    exact pyReplace_no_self (by decide) (by decide) (by decide) (by decide)
      (findOcc_none (by decide)) _

theorem c1_placeholders_removed_witness :
    ((str "/repo").head? = some '/') ∧ (('@' : Char) ∉ str "/repo") ∧
    (('\\' : Char) ∉ str "/repo") ∧
    (∀ tok ∈ placeholderTokens,
      ¬ InfOf tok (prepareText (str "/repo")
        (str "PROJECT_NAME = @PROJECT_NAME@\nOUTPUT_DIRECTORY = @CMAKE_SOURCE_DIR@/docs"))) :=
  ⟨by decide, by decide, by decide,
   c1_placeholders_removed (str "/repo")
     (str "PROJECT_NAME = @PROJECT_NAME@\nOUTPUT_DIRECTORY = @CMAKE_SOURCE_DIR@/docs")
     (by decide) (by decide) (by decide)⟩
